import Mathlib

/-!
# outflux: a shallow embedding of `outflux.go`

The development follows the source file top to bottom:

* Go maps (`map[string]T`) are association lists in insertion order without
  repeated keys (`GoMap`), with lookup, assignment and `len`.
* Go strings and byte slices are Lean strings (text that is valid UTF-8);
  `bytes.Equal` is equality, `bytes.HasPrefix` is the prefix test on the
  underlying character sequences.
* The line-protocol decoder is an external collaborator.  A record is what
  the decoder hands out: the result of `dec.Measurement()` and the two
  streams of results of `dec.NextTag()` and `dec.NextFieldBytes()` up to the
  terminating nil key.  A result is `none` when the call returned an error
  (the loops log it and `continue`) and `some (key, value)` otherwise.
* The goroutine of `Select` / `Summary` becomes a function from the record
  list to the list of values sent on the channel together with the final
  counters `n` and `recno`.
* The loops of `main` over a channel are functions of the list of values
  received; a `range` over a facet map is a fold over its entries in the
  order in which they are visited, which is left arbitrary.
* The summary report is the list of its lines, each line holding the
  arguments of its `fmt.Printf`.
-/

namespace Outflux

/-! ## Go maps -/

/-- A Go `map[string]β`: an association list in insertion order. -/
abbrev GoMap (β : Type) := List (String × β)

namespace GoMap

variable {β : Type}

/-- The comma-ok lookup `v, found := m[k]`. -/
def get? : GoMap β → String → Option β
  | [], _ => none
  | (k', v) :: m, k => if k' = k then some v else get? m k

/-- The assignment `m[k] = v`. -/
def set : GoMap β → String → β → GoMap β
  | [], k, v => [(k, v)]
  | (k', v') :: m, k, v => if k' = k then (k, v) :: m else (k', v') :: set m k v

/-- The keys of the map. -/
def keys (m : GoMap β) : List String := m.map Prod.fst

/-- Go's `len(m)`. -/
def len (m : GoMap β) : Nat := m.length

/-- The plain lookup `m[k]`, which yields the zero value for a missing key. -/
def getD (m : GoMap β) (k : String) (zero : β) : β := (m.get? k).getD zero

end GoMap

/-! ## Strings and byte slices -/

/-- Go's `bytes.HasPrefix(val, pat)`. -/
def hasPrefix (val pat : String) : Bool := pat.data.isPrefixOf val.data

/-- Go's `strings.ContainsRune(s, c)`. -/
def containsRune (s : String) (c : Char) : Bool := s.data.contains c

/-- The text before the first occurrence of `c` (all of it when `c` is absent). -/
def beforeSep (c : Char) : List Char → List Char
  | [] => []
  | x :: xs => if x = c then [] else x :: beforeSep c xs

/-- The text after the first occurrence of `c` (`none` when `c` is absent). -/
def afterSep (c : Char) : List Char → Option (List Char)
  | [] => none
  | x :: xs => if x = c then some xs else afterSep c xs

/-- Go's `strings.SplitN(s, sep, 2)` for a one-character separator: the whole
string when the separator is absent, else the parts around its first
occurrence. -/
def splitN2 (s : String) (sep : Char) : List String :=
  match afterSep sep s.data with
  | none => [s]
  | some rest => [String.mk (beforeSep sep s.data), String.mk rest]

/-- Bytewise lexicographic "less than" of Go strings, on character codes. -/
def strLess : List Char → List Char → Bool
  | _, [] => false
  | [], _ :: _ => true
  | a :: as, b :: bs =>
    if a.toNat < b.toNat then true
    else if b.toNat < a.toNat then false
    else strLess as bs

/-- Insertion of one string into a sorted list. -/
def insertSorted (s : String) : List String → List String
  | [] => [s]
  | t :: ts => if strLess t.data s.data then t :: insertSorted s ts else s :: t :: ts

/-- Go's `sort.Strings`. -/
def sortStrings : List String → List String
  | [] => []
  | s :: ss => insertSorted s (sortStrings ss)

/-- Go's `strings.Join(l, sep)`. -/
def joinStrings (sep : String) : List String → String
  | [] => ""
  | [s] => s
  | s :: t :: ts => s ++ sep ++ joinStrings sep (t :: ts)

/-! ## Records as seen through the decoder -/

/-- One result of `dec.NextTag()` or `dec.NextFieldBytes()` before the nil
key: `none` for an error, `some (key, value)` for a pair. -/
abbrev Event := Option (String × String)

/-- A record as the decoder presents it. `measurement` is `none` when
`dec.Measurement()` returns an error. -/
structure Record where
  measurement : Option String
  tags : List Event
  fields : List Event
  deriving DecidableEq

/-- The pairs of a stream that were decoded without error. -/
def decoded (evs : List Event) : List (String × String) := evs.reduceOption

/-- The keys of the decoded pairs of a stream. -/
def streamKeys (evs : List Event) : List String := (decoded evs).map Prod.fst

/-- The `from` slice of `Select` and `Summary`: nil unless `-m` is non-empty. -/
def fromOf (fMeasurement : String) : Option String :=
  if fMeasurement ≠ "" then some fMeasurement else none

/-- The test `from != nil && !bytes.Equal(from, m)` that drops a record. -/
def otherMeasurement (frm : Option String) (m : String) : Bool :=
  match frm with
  | some f => !(f == m)
  | none => false

/-! ## Select -/

/-- The loop `for i, v := range fields { fieldidx[v] = i }`, from index `i`. -/
def buildFieldIdx : List String → Nat → GoMap Nat → GoMap Nat
  | [], _, idx => idx
  | v :: vs, i, idx => buildFieldIdx vs (i + 1) (idx.set v i)

/-- The per-record locals of `Select`: `sat`, `flds` and `values`. -/
structure SelAcc where
  sat : Nat
  flds : Nat
  values : List String
  deriving DecidableEq

/-- The column fill `if idx, found := fieldidx[k]; found { ... }`. -/
def fillColumn (fieldidx : GoMap Nat) (acc : SelAcc) (k val : String) : SelAcc :=
  match fieldidx.get? k with
  | some idx => { acc with values := acc.values.set idx val, flds := acc.flds + 1 }
  | none => acc

/-- The body of the tag loop of `Select` for one decoded pair. -/
def selectTag (tags : GoMap String) (pfixes : GoMap Bool) (fieldidx : GoMap Nat)
    (acc : SelAcc) (k val : String) : SelAcc :=
  match tags.get? k with
  | some v =>
    if pfixes.getD k false && !hasPrefix val v then acc
    else if !pfixes.getD k false && !(val == v) then acc
    else fillColumn fieldidx { acc with sat := acc.sat + 1 } k val
  | none => fillColumn fieldidx acc k val

/-- The tag loop of `Select` over the results of `dec.NextTag()`. -/
def selectTagLoop (tags : GoMap String) (pfixes : GoMap Bool) (fieldidx : GoMap Nat) :
    SelAcc → List Event → SelAcc
  | acc, [] => acc
  | acc, none :: evs => selectTagLoop tags pfixes fieldidx acc evs
  | acc, some (k, val) :: evs =>
    selectTagLoop tags pfixes fieldidx (selectTag tags pfixes fieldidx acc k val) evs

/-- The field loop of `Select` over the results of `dec.NextFieldBytes()`. -/
def selectFieldLoop (fieldidx : GoMap Nat) : SelAcc → List Event → SelAcc
  | acc, [] => acc
  | acc, none :: evs => selectFieldLoop fieldidx acc evs
  | acc, some (k, val) :: evs => selectFieldLoop fieldidx (fillColumn fieldidx acc k val) evs

/-- The locals of `Select` after both loops of one record. -/
def selectPasses (tags : GoMap String) (pfixes : GoMap Bool) (fields : List String)
    (r : Record) : SelAcc :=
  let fieldidx := buildFieldIdx fields 0 []
  let acc := selectTagLoop tags pfixes fieldidx ⟨0, 0, List.replicate fields.length ""⟩ r.tags
  selectFieldLoop fieldidx acc r.fields

/-- What one iteration of `for dec.Next()` in `Select` sends on the channel:
`none` when the iteration ends in a `continue`. -/
def selectRecord (frm : Option String) (tags : GoMap String) (pfixes : GoMap Bool)
    (fields : List String) (r : Record) : Option (List String) :=
  match r.measurement with
  | none => none
  | some m =>
    if otherMeasurement frm m then none
    else
      let acc := selectPasses tags pfixes fields r
      if acc.sat ≠ tags.len ∨ acc.flds ≠ fields.length then none
      else some acc.values

/-- The state of a producer goroutine: what was sent and the two counters. -/
structure Producer (α : Type) where
  sent : List α
  n : Nat
  recno : Nat

/-- One iteration of `for dec.Next()` in `Select`. -/
def selectStep (frm : Option String) (tags : GoMap String) (pfixes : GoMap Bool)
    (fields : List String) (st : Producer (List String)) (r : Record) :
    Producer (List String) :=
  match selectRecord frm tags pfixes fields r with
  | none => { st with recno := st.recno + 1 }
  | some row => { sent := st.sent ++ [row], n := st.n + 1, recno := st.recno + 1 }

/-- The goroutine of `Select` run over all records of the input. -/
def Select (fMeasurement : String) (tags : GoMap String) (pfixes : GoMap Bool)
    (fields : List String) (recs : List Record) : Producer (List String) :=
  recs.foldl (selectStep (fromOf fMeasurement) tags pfixes fields) ⟨[], 0, 0⟩

/-! ## Summary -/

/-- The per-record locals of the tag loop of `Summary`: `sat` and `values`. -/
structure SumAcc where
  sat : Nat
  values : GoMap String
  deriving DecidableEq

/-- The body of the tag loop of `Summary` for one decoded pair. -/
def summaryTag (tags : GoMap String) (pfixes : GoMap Bool)
    (acc : SumAcc) (k val : String) : SumAcc :=
  match tags.get? k with
  | some v =>
    if pfixes.getD k false && !hasPrefix val v then acc
    else if !pfixes.getD k false && !(val == v) then acc
    else { sat := acc.sat + 1, values := acc.values.set k val }
  | none => { acc with values := acc.values.set k val }

/-- The tag loop of `Summary` over the results of `dec.NextTag()`. -/
def summaryTagLoop (tags : GoMap String) (pfixes : GoMap Bool) :
    SumAcc → List Event → SumAcc
  | acc, [] => acc
  | acc, none :: evs => summaryTagLoop tags pfixes acc evs
  | acc, some (k, val) :: evs =>
    summaryTagLoop tags pfixes (summaryTag tags pfixes acc k val) evs

/-- The field loop of `Summary`: the keys appended to `fields`. -/
def summaryFieldLoop : List String → List Event → List String
  | fs, [] => fs
  | fs, none :: evs => summaryFieldLoop fs evs
  | fs, some (k, _) :: evs => summaryFieldLoop (fs ++ [k]) evs

/-- The locals of `Summary` after the tag loop of a record with measurement `m`. -/
def summaryTagPass (tags : GoMap String) (pfixes : GoMap Bool) (m : String)
    (r : Record) : SumAcc :=
  summaryTagLoop tags pfixes ⟨0, [("", m)]⟩ r.tags

/-- What one iteration of `for dec.Next()` in `Summary` sends on the channel:
`none` when the iteration ends in a `continue`. -/
def summaryRecord (frm : Option String) (tags : GoMap String) (pfixes : GoMap Bool)
    (r : Record) : Option (GoMap String) :=
  match r.measurement with
  | none => none
  | some m =>
    if otherMeasurement frm m then none
    else
      let acc := summaryTagPass tags pfixes m r
      if acc.sat ≠ tags.len then none
      else
        let fields := sortStrings (summaryFieldLoop [] r.fields)
        some (acc.values.set " _fields" (joinStrings "," fields))

/-- One iteration of `for dec.Next()` in `Summary`. -/
def summaryStep (frm : Option String) (tags : GoMap String) (pfixes : GoMap Bool)
    (st : Producer (GoMap String)) (r : Record) : Producer (GoMap String) :=
  match summaryRecord frm tags pfixes r with
  | none => { st with recno := st.recno + 1 }
  | some values => { sent := st.sent ++ [values], n := st.n + 1, recno := st.recno + 1 }

/-- The goroutine of `Summary` run over all records of the input. -/
def Summary (fMeasurement : String) (tags : GoMap String) (pfixes : GoMap Bool)
    (recs : List Record) : Producer (GoMap String) :=
  recs.foldl (summaryStep (fromOf fMeasurement) tags pfixes) ⟨[], 0, 0⟩

/-- The totals printed by `log.Printf("read %d of %d records.", n, recno-1)`. -/
def reportedCounts {α : Type} (st : Producer α) : Int × Int :=
  ((st.n : Int), (st.recno : Int) - 1)

/-! ## main: the filter arguments -/

/-- The reasons for which `main` stops while it reads the filter arguments:
the two `log.Fatalf` calls and the run-time panic of an index out of range. -/
inductive Fatal where
  | duplicateTag (key : String)
  | emptyPrefix (arg : String)
  | indexOutOfRange
  deriving DecidableEq

/-- The variables `filter`, `pfxes` and `args` of `main` after the argument
loop. -/
structure Parsed where
  filter : GoMap String
  pfxes : GoMap Bool
  args : List String
  deriving DecidableEq

/-- The branch of the argument loop for an argument that contains `=`. -/
def parseEq (filter : GoMap String) (pfxes : GoMap Bool) (arg : String) :
    Except Fatal (GoMap String × GoMap Bool) :=
  match splitN2 arg '=' with
  | p0 :: p1 :: _ =>
    if (filter.get? p0).isSome then .error (.duplicateTag p0)
    else .ok (filter.set p0 p1, if p1 = "" then pfxes.set p0 true else pfxes)
  | _ => .error .indexOutOfRange

/-- The branch of the argument loop for an argument that contains `~` and
no `=`. -/
def parseTilde (filter : GoMap String) (pfxes : GoMap Bool) (arg : String) :
    Except Fatal (GoMap String × GoMap Bool) :=
  let parts := splitN2 arg '~'
  if parts.length ≠ 2 then .error (.emptyPrefix arg)
  else
    match parts with
    | p0 :: p1 :: _ =>
      if (filter.get? p0).isSome then .error (.duplicateTag p0)
      else .ok (filter.set p0 p1, pfxes.set p0 true)
    | _ => .error .indexOutOfRange

/-- The loop `for ; len(args) > 0; args = args[1:]` of `main`. -/
def parseLoop : GoMap String → GoMap Bool → List String → Except Fatal Parsed
  | filter, pfxes, [] => .ok ⟨filter, pfxes, []⟩
  | filter, pfxes, arg :: rest =>
    if containsRune arg '=' then
      match parseEq filter pfxes arg with
      | .error e => .error e
      | .ok (filter', pfxes') => parseLoop filter' pfxes' rest
    else if containsRune arg '~' then
      match parseTilde filter pfxes arg with
      | .error e => .error e
      | .ok (filter', pfxes') => parseLoop filter' pfxes' rest
    else .ok ⟨filter, pfxes, arg :: rest⟩

/-- The argument loop of `main` started on `flag.Args()` with empty maps. -/
def parseArgs (args : List String) : Except Fatal Parsed := parseLoop [] [] args

/-! ## main: the summary loop -/

/-- The body of `for tag, value := range tvs` without the counter `N`. -/
def tally (tagvals : GoMap (GoMap Nat)) (tag value : String) : GoMap (GoMap Nat) :=
  match tagvals.get? tag with
  | some m =>
    if (m.get? value).isSome || decide (m.len < 20) then
      tagvals.set tag (m.set value (m.getD value 0 + 1))
    else tagvals
  | none => tagvals.set tag [(value, 1)]

/-- The variables `tagvals` and `N` of the summary branch of `main`. -/
structure Tally where
  tagvals : GoMap (GoMap Nat)
  N : Nat
  deriving DecidableEq

/-- The loop `for tag, value := range tvs` over one facet map, whose entries
arrive in the order `tvs` in which the map iteration visits them. -/
def tallyRecord (st : Tally) (tvs : List (String × String)) : Tally :=
  tvs.foldl (fun s e => ⟨tally s.tagvals e.1 e.2, s.N + 1⟩) st

/-- The loop `for tvs := range Summary(...)` over the received facet maps. -/
def summaryLoop (tvss : List (List (String × String))) : Tally :=
  tvss.foldl tallyRecord ⟨[], 0⟩

/-! ## main: the projection loop -/

/-- The number of values of Go's `uint` on a 64-bit platform. -/
def uintSize : Nat := 2 ^ 64

/-- The default of `-lim`, `math.MaxUint`. -/
def maxUint : Nat := uintSize - 1

/-- The variables of the projection branch of `main`: the rows handed to
`w.Write`, the counter `N` and the flag values `*fSkip` and `*fLim`. -/
structure Proj where
  written : List (List String)
  N : Nat
  fSkip : Nat
  fLim : Nat
  deriving DecidableEq

/-- The loop `for values := range Select(...)` of `main` over the rows the
channel delivers. The second component holds the rows that are never
received because the loop ended in `break`. -/
def projLoop : Proj → List (List String) → Proj × List (List String)
  | st, [] => (st, [])
  | st, values :: rest =>
    if st.fSkip > 0 then projLoop { st with fSkip := st.fSkip - 1 } rest
    else
      let st' : Proj :=
        { written := st.written ++ [values], N := st.N + 1, fSkip := st.fSkip,
          fLim := (st.fLim + uintSize - 1) % uintSize }
      if st'.fLim = 0 then (st', rest) else projLoop st' rest

/-- The projection branch of `main` run with `-skip S -lim L` on the rows
that `Select` produces. -/
def project (S L : Nat) (rows : List (List String)) : Proj × List (List String) :=
  projLoop ⟨[], 0, S % uintSize, L % uintSize⟩ rows

/-! ## main: the summary report -/

/-- One line of the summary report: the heading of a facet, a value with its
count (the arguments of `fmt.Printf("\t%7d %s\n", v, k)`), or the truncation
marker `...`. -/
inductive Line where
  | header (text : String)
  | entry (count : Nat) (value : String)
  | more
  deriving DecidableEq

/-- The heading printed by the `switch tag` of the report. -/
def facetHeader (tag : String) : String :=
  if tag = "" then "MEASUREMENTS:"
  else if tag = " _fields" then "RECORD TYPES:"
  else tag ++ ":"

/-- The values of a facet as the report lists them: the keys of
`tagvals[tag]`, sorted, cut to 19 when there are more than 19. -/
def listedValues (tagvals : GoMap (GoMap Nat)) (tag : String) : List String :=
  let values := sortStrings (tagvals.getD tag []).keys
  if values.length > 19 then values.take 19 else values

/-- The flag `long` of the report for a facet. -/
def isLong (tagvals : GoMap (GoMap Nat)) (tag : String) : Bool :=
  decide ((sortStrings (tagvals.getD tag []).keys).length > 19)

/-- The lines that one iteration of `for _, tag := range tags` prints. -/
def reportFacet (tagvals : GoMap (GoMap Nat)) (tag : String) : List Line :=
  Line.header (facetHeader tag) ::
    ((listedValues tagvals tag).map
        (fun k => Line.entry ((tagvals.getD tag []).getD k 0) k) ++
      if isLong tagvals tag then [Line.more] else [])

/-- The slice `tags` of the report after `sort.Strings(tags)`: the order in
which the facets are printed. -/
def reportOrder (tagvals : GoMap (GoMap Nat)) : List String := sortStrings tagvals.keys

/-- The summary report of `main`. -/
def report (tagvals : GoMap (GoMap Nat)) : List Line :=
  (reportOrder tagvals).flatMap (reportFacet tagvals)

/-- The summary branch of `main` on the facet maps it receives. -/
def summaryReport (tvss : List (List (String × String))) : List Line :=
  report (summaryLoop tvss).tagvals

/-! ## Notions used to state the properties -/

/-- The match rule of the tag loops for filter key `k` with configured value
`v` against the tag value `val`: the two `continue` tests, negated. -/
def matchRule (pfixes : GoMap Bool) (k v val : String) : Bool :=
  if pfixes.getD k false then hasPrefix val v else val == v

/-- A decoded tag pair on which the tag loops execute `sat++`. -/
def satisfied (tags : GoMap String) (pfixes : GoMap Bool) (p : String × String) : Bool :=
  match tags.get? p.1 with
  | some v => matchRule pfixes p.1 v p.2
  | none => false

/-- A decoded tag pair on which the tag loops do not `continue` early. -/
def unblocked (tags : GoMap String) (pfixes : GoMap Bool) (p : String × String) : Bool :=
  match tags.get? p.1 with
  | some v => matchRule pfixes p.1 v p.2
  | none => true

/-- The column fills of a list of decoded pairs, in order. -/
def fillAll (fieldidx : GoMap Nat) (acc : SelAcc) (pairs : List (String × String)) : SelAcc :=
  pairs.foldl (fun a p => fillColumn fieldidx a p.1 p.2) acc

/-- The decoded pairs of a record that reach the column fill of `Select`:
the tags on which the tag loop does not `continue` early, then the fields. -/
def fillPairs (tags : GoMap String) (pfixes : GoMap Bool) (r : Record) :
    List (String × String) :=
  (decoded r.tags).filter (unblocked tags pfixes) ++ decoded r.fields

/-- All entries that the summary loop visits, in the order it visits them. -/
def visited (tvss : List (List (String × String))) : List (String × String) := tvss.flatten

/-- The values that facet `f` takes along the visited entries, in order. A
facet map holds each facet at most once, so this is one value per record
that has the facet, in record order. -/
def observed (f : String) (es : List (String × String)) : List String :=
  es.filterMap (fun e => if e.1 = f then some e.2 else none)

/-- The distinct values of a list in the order of their first occurrence. -/
def firstDistinct (l : List String) : List String :=
  l.foldl (fun seen v => if v ∈ seen then seen else seen ++ [v]) []

/-- The values that facet `f` tracks in the aggregation table. -/
def tracked (tagvals : GoMap (GoMap Nat)) (f : String) : List String :=
  (tagvals.getD f []).keys

/-- Twenty facet maps that give the facet `h` twenty different values. -/
def twentyHosts : List (List (String × String)) :=
  ["a", "b", "c", "d", "e", "f", "g", "h", "i", "j", "k", "l", "m", "n", "o", "p", "q", "r",
    "s", "t"].map (fun v => [("", "cpu"), ("h", v)])

/-- An argument that the argument loop of `main` takes as a filter term. -/
def isFilterTerm (a : String) : Bool := containsRune a '=' || containsRune a '~'

/-- The separator at which the argument loop splits a filter term. -/
def termSep (a : String) : Char := if containsRune a '=' then '=' else '~'

/-- The key that a filter term names: the text before its separator. -/
def termKey (a : String) : String := String.mk (beforeSep (termSep a) a.data)

/-- The configured value of a filter term: the text after its separator. -/
def termValue (a : String) : String := String.mk ((afterSep (termSep a) a.data).getD [])

/-- The leading filter terms of the argument list. -/
def leadingTerms (args : List String) : List String := args.takeWhile isFilterTerm

/-- The record `cpu,host=a,region=us value=1`. -/
def recCpuA : Record :=
  ⟨some "cpu", [some ("host", "a"), some ("region", "us")], [some ("value", "1")]⟩

/-- The record `cpu,host=b,region=eu value=2`. -/
def recCpuB : Record :=
  ⟨some "cpu", [some ("host", "b"), some ("region", "eu")], [some ("value", "2")]⟩

/-- The record `mem,host=a value=9`. -/
def recMemA : Record := ⟨some "mem", [some ("host", "a")], [some ("value", "9")]⟩

/-- A record whose tag stream repeats the key `a`: tags `a=1`, `a=1`, field
`value=7`. -/
def recRepeatedTag : Record :=
  ⟨some "cpu", [some ("a", "1"), some ("a", "1")], [some ("value", "7")]⟩

/-- The order of `sort.Strings`: `a` is not after `b`. -/
def strLe (a b : String) : Prop := strLess b.data a.data = false

/-- A report line that lists a value. -/
def Line.isEntry : Line → Bool
  | Line.entry _ _ => true
  | _ => false

/-- The number of values that a list of report lines lists. -/
def entryCount (ls : List Line) : Nat := (ls.filter Line.isEntry).length

/-- The number of distinct values that facet `f` took in the facet maps. -/
def distinctCount (f : String) (tvss : List (List (String × String))) : Nat :=
  (firstDistinct (observed f (visited tvss))).length

/-- The effect of the body of the summary loop on the map of the facet it
visits: `o` is the result of `tagvals[tag]` (`none` when not found). -/
def facetStep (o : Option (GoMap Nat)) (value : String) : Option (GoMap Nat) :=
  match o with
  | some m =>
    if (m.get? value).isSome || decide (m.len < 20) then
      some (m.set value (m.getD value 0 + 1))
    else some m
  | none => some [(value, 1)]

/-- The number of facet maps that assign the value `v` to the facet `f`. -/
def recordsWith (f v : String) (tvss : List (List (String × String))) : Nat :=
  (tvss.filter (fun tvs => decide ((f, v) ∈ tvs))).length

/-- Twenty-one records with twenty-one different measurement names. -/
def twentyOneMeasurements : List Record :=
  ["a", "b", "c", "d", "e", "f", "g", "h", "i", "j", "k", "l", "m", "n", "o", "p", "q", "r",
    "s", "t", "u"].map (fun n => ⟨some n, [], [some ("value", "1")]⟩)

/-- The measurement names of the records, in record order. -/
def measurementNames (recs : List Record) : List String :=
  recs.filterMap (fun r => r.measurement)

/-- The record `cpu,host=a,region=us value=1,load=2,cpu=3`, with a decoding
error between the first two fields. -/
def recThreeFields : Record :=
  ⟨some "cpu", [some ("host", "a"), some ("region", "us")],
    [some ("value", "1"), none, some ("load", "2"), some ("cpu", "3")]⟩

/-- The same record with its fields in the order `cpu`, `value`, `load`. -/
def recThreeFieldsPermuted : Record :=
  ⟨some "cpu", [some ("host", "a"), some ("region", "us")],
    [some ("cpu", "3"), some ("value", "1"), some ("load", "2")]⟩

/-! ## Lemmas on Go maps and strings -/

namespace GoMap

variable {β : Type}

theorem get?_set (m : GoMap β) (k k' : String) (v : β) :
    (m.set k v).get? k' = if k = k' then some v else m.get? k' := by
  induction m with
  | nil => simp [set, get?]
  | cons e m ih =>
    obtain ⟨a, b⟩ := e
    by_cases h : a = k
    · subst h
      by_cases h2 : a = k' <;> simp [set, get?, h2]
    · by_cases h2 : a = k'
      · subst h2
        have : ¬ k = a := fun h3 => h h3.symm
        simp [set, get?, h, this]
      · simp [set, get?, h, h2, ih]

theorem get?_eq_none_iff (m : GoMap β) (k : String) : m.get? k = none ↔ k ∉ m.keys := by
  induction m with
  | nil => simp [get?, keys]
  | cons e m ih =>
    obtain ⟨a, b⟩ := e
    by_cases h : a = k
    · subst h; simp [get?, keys]
    · have h2 : ¬ k = a := fun h3 => h h3.symm
      simp only [keys] at ih
      simp [get?, keys, h, h2, ih]

theorem get?_isSome_iff (m : GoMap β) (k : String) :
    (m.get? k).isSome = true ↔ k ∈ m.keys := by
  rw [← not_iff_not, ← get?_eq_none_iff]
  cases m.get? k <;> simp

theorem mem_of_get? (m : GoMap β) (k : String) (v : β) (h : m.get? k = some v) :
    (k, v) ∈ m := by
  induction m with
  | nil => simp [get?] at h
  | cons e m ih =>
    obtain ⟨a, b⟩ := e
    by_cases h1 : a = k
    · subst h1; simp [get?] at h; simp [h]
    · simp [get?, h1] at h; exact List.mem_cons_of_mem _ (ih h)

theorem get?_of_mem (m : GoMap β) (hm : m.keys.Nodup) (k : String) (v : β)
    (h : (k, v) ∈ m) : m.get? k = some v := by
  induction m with
  | nil => simp at h
  | cons e m ih =>
    obtain ⟨a, b⟩ := e
    simp only [keys, List.map_cons, List.nodup_cons] at hm
    rcases List.mem_cons.1 h with h1 | h1
    · injection h1 with h2 h3; subst h2; subst h3; simp [get?]
    · have : a ≠ k := by
        rintro rfl
        exact hm.1 (List.mem_map_of_mem Prod.fst h1)
      simp [get?, this]
      exact ih hm.2 h1

theorem keys_set_of_mem (m : GoMap β) (k : String) (v : β) (h : k ∈ m.keys) :
    (m.set k v).keys = m.keys := by
  induction m with
  | nil => simp [keys] at h
  | cons e m ih =>
    obtain ⟨a, b⟩ := e
    by_cases h1 : a = k
    · subst h1; simp [set, keys]
    · have h2 : k ∈ GoMap.keys m := by
        simp only [keys, List.map_cons, List.mem_cons] at h
        rcases h with h | h
        · exact absurd h.symm h1
        · exact h
      simp only [keys] at ih
      simp [set, keys, h1, ih h2]

theorem keys_set_of_not_mem (m : GoMap β) (k : String) (v : β) (h : k ∉ m.keys) :
    (m.set k v).keys = m.keys ++ [k] := by
  induction m with
  | nil => simp [set, keys]
  | cons e m ih =>
    obtain ⟨a, b⟩ := e
    simp only [keys, List.map_cons, List.mem_cons, not_or] at h
    have h1 : ¬ a = k := fun h2 => h.1 h2.symm
    simp only [keys] at ih
    simp [set, keys, h1, ih h.2]

theorem set_of_not_mem (m : GoMap β) (k : String) (v : β) (h : k ∉ m.keys) :
    m.set k v = m ++ [(k, v)] := by
  induction m with
  | nil => simp [set]
  | cons e m ih =>
    obtain ⟨a, b⟩ := e
    simp only [keys, List.map_cons, List.mem_cons, not_or] at h
    have h1 : ¬ a = k := fun h2 => h.1 h2.symm
    simp only [keys] at ih
    simp [set, h1, ih h.2]

theorem keys_nodup_set (m : GoMap β) (k : String) (v : β) (h : m.keys.Nodup) :
    (m.set k v).keys.Nodup := by
  by_cases hk : k ∈ m.keys
  · rw [keys_set_of_mem m k v hk]; exact h
  · rw [keys_set_of_not_mem m k v hk]
    exact List.Nodup.append h (List.nodup_singleton k) (by simpa using hk)

end GoMap

theorem hasPrefix_iff (val v : String) :
    hasPrefix val v = true ↔ ∃ rest : String, val = v ++ rest := by
  unfold hasPrefix
  rw [List.isPrefixOf_iff_prefix]
  constructor
  · rintro ⟨t, ht⟩
    refine ⟨String.mk t, ?_⟩
    apply String.ext
    simp [ht]
  · rintro ⟨rest, rfl⟩
    exact ⟨rest.data, by simp⟩

theorem matchRule_iff (pfixes : GoMap Bool) (k v val : String) :
    matchRule pfixes k v val = true ↔
      (if pfixes.getD k false = true then ∃ rest : String, val = v ++ rest else val = v) := by
  unfold matchRule
  by_cases h : pfixes.getD k false = true
  · simp [h, hasPrefix_iff]
  · simp [h]

/-! ## The tag filter -/

theorem selectTag_eq (tags : GoMap String) (pfixes : GoMap Bool) (fieldidx : GoMap Nat)
    (acc : SelAcc) (k val : String) :
    selectTag tags pfixes fieldidx acc k val =
      if unblocked tags pfixes (k, val) then
        fillColumn fieldidx
          { acc with sat := acc.sat + if satisfied tags pfixes (k, val) then 1 else 0 } k val
      else acc := by
  unfold selectTag unblocked satisfied matchRule
  cases hg : tags.get? k with
  | none => simp
  | some v =>
    cases hp : pfixes.getD k false
    · by_cases hv : val = v <;> simp [hv]
    · cases hh : hasPrefix val v <;> simp [hh]

theorem fillColumn_sat (fieldidx : GoMap Nat) (acc : SelAcc) (k val : String) :
    (fillColumn fieldidx acc k val).sat = acc.sat := by
  unfold fillColumn
  cases fieldidx.get? k <;> rfl

theorem selectTagLoop_sat (tags : GoMap String) (pfixes : GoMap Bool) (fieldidx : GoMap Nat)
    (evs : List Event) (acc : SelAcc) :
    (selectTagLoop tags pfixes fieldidx acc evs).sat =
      acc.sat + ((decoded evs).filter (satisfied tags pfixes)).length := by
  induction evs generalizing acc with
  | nil => simp [selectTagLoop, decoded]
  | cons e evs ih =>
    cases e with
    | none => simpa [selectTagLoop, decoded] using ih acc
    | some p =>
      obtain ⟨k, val⟩ := p
      simp only [selectTagLoop, decoded, List.reduceOption_cons_of_some] at ih ⊢
      rw [ih, selectTag_eq]
      have hsu : unblocked tags pfixes (k, val) = false →
          satisfied tags pfixes (k, val) = false := by
        unfold unblocked satisfied
        cases tags.get? k <;> simp
      cases hu : unblocked tags pfixes (k, val) <;>
        cases hs : satisfied tags pfixes (k, val) <;>
        simp_all [fillColumn_sat, List.filter_cons]
      omega

theorem selectFieldLoop_sat (fieldidx : GoMap Nat) (evs : List Event) (acc : SelAcc) :
    (selectFieldLoop fieldidx acc evs).sat = acc.sat := by
  induction evs generalizing acc with
  | nil => rfl
  | cons e evs ih =>
    cases e with
    | none => simpa [selectFieldLoop] using ih acc
    | some p =>
      obtain ⟨k, val⟩ := p
      simp only [selectFieldLoop]
      rw [ih, fillColumn_sat]

theorem selectPasses_sat (tags : GoMap String) (pfixes : GoMap Bool) (fields : List String)
    (r : Record) :
    (selectPasses tags pfixes fields r).sat =
      ((decoded r.tags).filter (satisfied tags pfixes)).length := by
  unfold selectPasses
  simp only [selectFieldLoop_sat, selectTagLoop_sat]
  omega

theorem summaryTagLoop_sat (tags : GoMap String) (pfixes : GoMap Bool)
    (evs : List Event) (acc : SumAcc) :
    (summaryTagLoop tags pfixes acc evs).sat =
      acc.sat + ((decoded evs).filter (satisfied tags pfixes)).length := by
  induction evs generalizing acc with
  | nil => simp [summaryTagLoop, decoded]
  | cons e evs ih =>
    cases e with
    | none => simpa [summaryTagLoop, decoded] using ih acc
    | some p =>
      obtain ⟨k, val⟩ := p
      simp only [summaryTagLoop, decoded, List.reduceOption_cons_of_some] at ih ⊢
      rw [ih]
      unfold summaryTag satisfied matchRule
      cases hg : tags.get? k with
      | none => simp [List.filter_cons, satisfied, hg]
      | some v =>
        cases hp : pfixes.getD k false
        · by_cases hv : val = v <;>
            simp [hv, List.filter_cons, satisfied, hg, matchRule, hp]
          omega
        · cases hh : hasPrefix val v <;>
            simp [hh, List.filter_cons, satisfied, hg, matchRule, hp]
          omega

theorem summaryTagPass_sat (tags : GoMap String) (pfixes : GoMap Bool) (m : String)
    (r : Record) :
    (summaryTagPass tags pfixes m r).sat =
      ((decoded r.tags).filter (satisfied tags pfixes)).length := by
  unfold summaryTagPass
  rw [summaryTagLoop_sat]
  simp

/-- The counting shortcut: with distinct filter keys and distinct tag keys,
the number of satisfied tags reaches the number of filter keys exactly when
every filter entry has a tag that obeys its match rule. -/
theorem satisfied_count_eq_iff (tags : GoMap String) (pfixes : GoMap Bool)
    (pairs : List (String × String)) (htags : tags.keys.Nodup)
    (hpairs : (pairs.map Prod.fst).Nodup) :
    (pairs.filter (satisfied tags pfixes)).length = tags.len ↔
      ∀ k v, (k, v) ∈ tags → ∃ val, (k, val) ∈ pairs ∧ matchRule pfixes k v val = true := by
  have hSnodup : ((pairs.filter (satisfied tags pfixes)).map Prod.fst).Nodup :=
    (List.filter_sublist pairs).map Prod.fst |>.nodup hpairs
  have hSsub : (pairs.filter (satisfied tags pfixes)).map Prod.fst ⊆ tags.keys := by
    intro k hk
    obtain ⟨p, hp, rfl⟩ := List.mem_map.1 hk
    have hs := (List.mem_filter.1 hp).2
    rw [← GoMap.get?_isSome_iff]
    unfold satisfied at hs
    cases hg : tags.get? p.1 <;> simp_all
  have hlenS : (pairs.filter (satisfied tags pfixes)).length =
      ((pairs.filter (satisfied tags pfixes)).map Prod.fst).length := by simp
  have hlenT : tags.len = tags.keys.length := by simp [GoMap.len, GoMap.keys]
  have hsp := List.subperm_of_subset hSnodup hSsub
  constructor
  · intro hlen k v hkv
    have hperm := hsp.perm_of_length_le (by omega)
    have hk : k ∈ (pairs.filter (satisfied tags pfixes)).map Prod.fst :=
      hperm.symm.subset (List.mem_map_of_mem Prod.fst hkv)
    obtain ⟨p, hp, rfl⟩ := List.mem_map.1 hk
    obtain ⟨hp1, hp2⟩ := List.mem_filter.1 hp
    refine ⟨p.2, hp1, ?_⟩
    unfold satisfied at hp2
    rw [GoMap.get?_of_mem tags htags p.1 v hkv] at hp2
    exact hp2
  · intro hall
    have hsub2 : tags.keys ⊆ (pairs.filter (satisfied tags pfixes)).map Prod.fst := by
      intro k hk
      obtain ⟨e, he, rfl⟩ := List.mem_map.1 hk
      obtain ⟨val, hval, hm⟩ := hall e.1 e.2 he
      refine List.mem_map.2 ⟨(e.1, val), List.mem_filter.2 ⟨hval, ?_⟩, rfl⟩
      unfold satisfied
      rw [GoMap.get?_of_mem tags htags e.1 e.2 he]
      exact hm
    have h1 := (List.subperm_of_subset htags hsub2).length_le
    have h2 := hsp.length_le
    omega

/-- Both tag loops accept exactly the records in which every filter entry has
a tag that obeys its match rule, given distinct filter keys and tag keys. -/
theorem sat_eq_len_iff (tags : GoMap String) (pfixes : GoMap Bool)
    (fields : List String) (m : String) (r : Record)
    (htags : tags.keys.Nodup) (hr : (streamKeys r.tags).Nodup) :
    ((selectPasses tags pfixes fields r).sat = tags.len ↔
        ∀ k v, (k, v) ∈ tags → ∃ val, (k, val) ∈ decoded r.tags ∧
          (if pfixes.getD k false = true then ∃ rest : String, val = v ++ rest
           else val = v)) ∧
    ((summaryTagPass tags pfixes m r).sat = tags.len ↔
        ∀ k v, (k, v) ∈ tags → ∃ val, (k, val) ∈ decoded r.tags ∧
          (if pfixes.getD k false = true then ∃ rest : String, val = v ++ rest
           else val = v)) := by
  have key := satisfied_count_eq_iff tags pfixes (decoded r.tags) htags hr
  simp only [matchRule_iff] at key
  rw [selectPasses_sat, summaryTagPass_sat]
  exact ⟨key, key⟩

theorem selectRecord_isSome_iff (frm : Option String) (tags : GoMap String)
    (pfixes : GoMap Bool) (fields : List String) (r : Record) :
    (selectRecord frm tags pfixes fields r).isSome = true ↔
      (∃ m, r.measurement = some m ∧ otherMeasurement frm m = false) ∧
      (selectPasses tags pfixes fields r).sat = tags.len ∧
      (selectPasses tags pfixes fields r).flds = fields.length := by
  unfold selectRecord
  cases hm : r.measurement with
  | none => simp
  | some m =>
    cases ho : otherMeasurement frm m
    · by_cases h1 : (selectPasses tags pfixes fields r).sat = tags.len <;>
        by_cases h2 : (selectPasses tags pfixes fields r).flds = fields.length <;>
        simp [h1, h2, ho]
    · simp [ho]

theorem summaryRecord_isSome_iff (frm : Option String) (tags : GoMap String)
    (pfixes : GoMap Bool) (r : Record) :
    (summaryRecord frm tags pfixes r).isSome = true ↔
      ∃ m, r.measurement = some m ∧ otherMeasurement frm m = false ∧
        (summaryTagPass tags pfixes m r).sat = tags.len := by
  unfold summaryRecord
  cases hm : r.measurement with
  | none => simp
  | some m =>
    cases ho : otherMeasurement frm m
    · by_cases h1 : (summaryTagPass tags pfixes m r).sat = tags.len <;> simp [h1, ho]
    · simp [ho]

/-- C1: for a filter with distinct keys and a record with pairwise distinct
tag keys, the tag loops of `Select` and of `Summary` end with `sat` equal to
`len(tags)` if and only if every filter key occurs among the record's tags
with a value that equals the configured value (exact key) or starts with it
(prefix key). The tests `sat != len(tags)` act on it: `Summary` sends a facet
map for the record exactly when its measurement passes and the tags meet
the filter in that sense, `Select` sends a row exactly when in addition
`flds` equals `len(fields)`, and a record that lacks a filter key is
rejected by both: nothing is sent for it. -/
theorem tag_filter_accepts_iff (tags : GoMap String) (pfixes : GoMap Bool)
    (fields : List String) (m : String) (r : Record)
    (htags : tags.keys.Nodup) (hr : (streamKeys r.tags).Nodup) :
    ((selectPasses tags pfixes fields r).sat = tags.len ↔
        ∀ k v, (k, v) ∈ tags → ∃ val, (k, val) ∈ decoded r.tags ∧
          (if pfixes.getD k false = true then ∃ rest : String, val = v ++ rest
           else val = v)) ∧
    ((summaryTagPass tags pfixes m r).sat = tags.len ↔
        ∀ k v, (k, v) ∈ tags → ∃ val, (k, val) ∈ decoded r.tags ∧
          (if pfixes.getD k false = true then ∃ rest : String, val = v ++ rest
           else val = v)) ∧
    (∀ k, k ∈ tags.keys → k ∉ streamKeys r.tags →
        (selectPasses tags pfixes fields r).sat ≠ tags.len ∧
        (summaryTagPass tags pfixes m r).sat ≠ tags.len) ∧
    (∀ frm, (selectRecord frm tags pfixes fields r).isSome = true ↔
        (∃ m', r.measurement = some m' ∧ otherMeasurement frm m' = false) ∧
        (∀ k v, (k, v) ∈ tags → ∃ val, (k, val) ∈ decoded r.tags ∧
          (if pfixes.getD k false = true then ∃ rest : String, val = v ++ rest
           else val = v)) ∧
        (selectPasses tags pfixes fields r).flds = fields.length) ∧
    (∀ frm, (summaryRecord frm tags pfixes r).isSome = true ↔
        (∃ m', r.measurement = some m' ∧ otherMeasurement frm m' = false) ∧
        (∀ k v, (k, v) ∈ tags → ∃ val, (k, val) ∈ decoded r.tags ∧
          (if pfixes.getD k false = true then ∃ rest : String, val = v ++ rest
           else val = v))) ∧
    (∀ k, k ∈ tags.keys → k ∉ streamKeys r.tags →
        ∀ frm, selectRecord frm tags pfixes fields r = none ∧
          summaryRecord frm tags pfixes r = none) := by
  have key := satisfied_count_eq_iff tags pfixes (decoded r.tags) htags hr
  simp only [matchRule_iff] at key
  have hlack : ∀ k, k ∈ tags.keys → k ∉ streamKeys r.tags →
      ((decoded r.tags).filter (satisfied tags pfixes)).length ≠ tags.len := by
    intro k hk hnot h
    obtain ⟨e, he, rfl⟩ := List.mem_map.1 hk
    obtain ⟨val, hval, -⟩ := key.1 h e.1 e.2 he
    exact hnot (List.mem_map.2 ⟨(e.1, val), hval, rfl⟩)
  have hsel : ∀ frm, (selectRecord frm tags pfixes fields r).isSome = true ↔
      (∃ m', r.measurement = some m' ∧ otherMeasurement frm m' = false) ∧
      (∀ k v, (k, v) ∈ tags → ∃ val, (k, val) ∈ decoded r.tags ∧
        (if pfixes.getD k false = true then ∃ rest : String, val = v ++ rest
         else val = v)) ∧
      (selectPasses tags pfixes fields r).flds = fields.length := by
    intro frm
    rw [selectRecord_isSome_iff, selectPasses_sat, key]
  have hsum : ∀ frm, (summaryRecord frm tags pfixes r).isSome = true ↔
      (∃ m', r.measurement = some m' ∧ otherMeasurement frm m' = false) ∧
      (∀ k v, (k, v) ∈ tags → ∃ val, (k, val) ∈ decoded r.tags ∧
        (if pfixes.getD k false = true then ∃ rest : String, val = v ++ rest
         else val = v)) := by
    intro frm
    rw [summaryRecord_isSome_iff]
    simp only [summaryTagPass_sat, key]
    constructor
    · rintro ⟨m', h1, h2, h3⟩
      exact ⟨⟨m', h1, h2⟩, h3⟩
    · rintro ⟨⟨m', h1, h2⟩, h3⟩
      exact ⟨m', h1, h2, h3⟩
  rw [selectPasses_sat, summaryTagPass_sat]
  refine ⟨key, key, fun k hk hnot => ⟨hlack k hk hnot, hlack k hk hnot⟩, hsel, hsum, ?_⟩
  intro k hk hnot frm
  have hno : ¬ ∀ k v, (k, v) ∈ tags → ∃ val, (k, val) ∈ decoded r.tags ∧
      (if pfixes.getD k false = true then ∃ rest : String, val = v ++ rest
       else val = v) := fun h => hlack k hk hnot (key.2 h)
  constructor
  · cases h : selectRecord frm tags pfixes fields r with
    | none => rfl
    | some row => exact absurd ((hsel frm).1 (by rw [h]; rfl)).2.1 hno
  · cases h : summaryRecord frm tags pfixes r with
    | none => rfl
    | some g => exact absurd ((hsum frm).1 (by rw [h]; rfl)).2 hno

/-- Witness for C1: under the filter `region=us host~a` the record
`mem,host=ab value=9`, which has no `region` tag, is sent neither by
`Select` nor by `Summary`, while for the record with the tags `host=ab`,
`region=us` `Summary` sends a facet map. -/
theorem tag_filter_accepts_iff_witness :
    (selectRecord none [("region", "us"), ("host", "a")] [("host", true)] ["host"]
        ⟨some "mem", [some ("host", "ab")], [some ("value", "9")]⟩ = none ∧
      summaryRecord none [("region", "us"), ("host", "a")] [("host", true)]
        ⟨some "mem", [some ("host", "ab")], [some ("value", "9")]⟩ = none) ∧
    (summaryRecord none [("region", "us"), ("host", "a")] [("host", true)]
      ⟨some "cpu", [some ("host", "ab"), none, some ("region", "us")], []⟩).isSome = true :=
  ⟨(tag_filter_accepts_iff [("region", "us"), ("host", "a")] [("host", true)] ["host"] "mem"
      ⟨some "mem", [some ("host", "ab")], [some ("value", "9")]⟩
      (by decide) (by decide)).2.2.2.2.2 "region" (by decide) (by decide) none,
    by decide⟩

/-! ## The column projection -/

theorem buildFieldIdx_get? (vs : List String) (hvs : vs.Nodup) (i : Nat) (idx : GoMap Nat)
    (k : String) :
    (buildFieldIdx vs i idx).get? k =
      if k ∈ vs then some (i + vs.indexOf k) else idx.get? k := by
  induction vs generalizing i idx with
  | nil => simp [buildFieldIdx]
  | cons v vs ih =>
    obtain ⟨hv, hvs'⟩ := List.nodup_cons.1 hvs
    simp only [buildFieldIdx]
    rw [ih hvs', GoMap.get?_set]
    by_cases hk : k = v
    · subst hk
      simp [hv]
    · have hk' : ¬ v = k := fun h => hk h.symm
      by_cases hmem : k ∈ vs
      · simp [hmem, hk, List.indexOf_cons_ne _ hk']
        omega
      · simp [hmem, hk, hk']

theorem fieldidx_get?_iff (fields : List String) (hf : fields.Nodup) (k : String) (i : Nat) :
    (buildFieldIdx fields 0 []).get? k = some i ↔ fields[i]? = some k := by
  rw [buildFieldIdx_get? fields hf]
  by_cases hk : k ∈ fields
  · simp only [hk, if_true, Nat.zero_add, Option.some.injEq]
    constructor
    · rintro rfl
      have hlt : fields.indexOf k < fields.length := List.indexOf_lt_length.2 hk
      rw [List.getElem?_eq_getElem hlt, List.getElem_indexOf hlt]
    · intro h
      obtain ⟨hi, rfl⟩ := List.getElem?_eq_some_iff.1 h
      exact List.indexOf_getElem hf i hi
  · simp only [hk, if_false, GoMap.get?]
    constructor
    · intro h; cases h
    · intro h
      obtain ⟨hi, rfl⟩ := List.getElem?_eq_some_iff.1 h
      exact absurd (List.getElem_mem hi) hk

theorem fillColumn_length (fieldidx : GoMap Nat) (acc : SelAcc) (k val : String) :
    (fillColumn fieldidx acc k val).values.length = acc.values.length := by
  unfold fillColumn
  cases fieldidx.get? k <;> simp

theorem fillAll_length (fieldidx : GoMap Nat) (pairs : List (String × String)) (acc : SelAcc) :
    (fillAll fieldidx acc pairs).values.length = acc.values.length := by
  induction pairs generalizing acc with
  | nil => rfl
  | cons p pairs ih =>
    simp only [fillAll, List.foldl_cons] at ih ⊢
    rw [ih, fillColumn_length]

theorem fillAll_flds (fieldidx : GoMap Nat) (pairs : List (String × String)) (acc : SelAcc) :
    (fillAll fieldidx acc pairs).flds =
      acc.flds + (pairs.filter (fun p => (fieldidx.get? p.1).isSome)).length := by
  induction pairs generalizing acc with
  | nil => simp [fillAll]
  | cons p pairs ih =>
    simp only [fillAll, List.foldl_cons] at ih ⊢
    rw [ih]
    unfold fillColumn
    cases hg : fieldidx.get? p.1 <;> simp [List.filter_cons, hg]
    omega

theorem fillAll_untouched (fieldidx : GoMap Nat) (i : Nat) (pairs : List (String × String))
    (acc : SelAcc) (h : ∀ p ∈ pairs, fieldidx.get? p.1 ≠ some i) :
    (fillAll fieldidx acc pairs).values[i]? = acc.values[i]? := by
  induction pairs generalizing acc with
  | nil => rfl
  | cons p pairs ih =>
    simp only [fillAll, List.foldl_cons] at ih ⊢
    rw [ih _ (fun q hq => h q (List.mem_cons_of_mem _ hq))]
    have hp := h p (List.mem_cons_self _ _)
    unfold fillColumn
    cases hg : fieldidx.get? p.1 with
    | none => rfl
    | some j =>
      have hji : j ≠ i := by
        rintro rfl
        exact hp hg
      simp [List.getElem?_set_ne hji]

theorem fillAll_filled (fieldidx : GoMap Nat)
    (hinj : ∀ k k' i, fieldidx.get? k = some i → fieldidx.get? k' = some i → k = k')
    (i : Nat) (k v : String) (hk : fieldidx.get? k = some i)
    (pairs : List (String × String)) (hnodup : (pairs.map Prod.fst).Nodup)
    (hmem : (k, v) ∈ pairs) (acc : SelAcc) (hi : i < acc.values.length) :
    (fillAll fieldidx acc pairs).values[i]? = some v := by
  induction pairs generalizing acc with
  | nil => simp at hmem
  | cons p pairs ih =>
    rw [List.map_cons, List.nodup_cons] at hnodup
    obtain ⟨hp, hrest⟩ := hnodup
    simp only [fillAll, List.foldl_cons] at ih ⊢
    rcases List.mem_cons.1 hmem with h | h
    · subst h
      have hun : ∀ q ∈ pairs, fieldidx.get? q.1 ≠ some i := by
        intro q hq hqi
        have := hinj _ _ _ hqi hk
        exact hp (List.mem_map.2 ⟨q, hq, this⟩)
      have := fillAll_untouched fieldidx i pairs (fillColumn fieldidx acc k v) hun
      simp only [fillAll] at this
      rw [this]
      simp [fillColumn, hk, hi]
    · exact ih hrest h _ (by rw [fillColumn_length]; exact hi)

theorem fillColumn_congr (fieldidx : GoMap Nat) (a b : SelAcc) (k val : String)
    (h : a.flds = b.flds ∧ a.values = b.values) :
    (fillColumn fieldidx a k val).flds = (fillColumn fieldidx b k val).flds ∧
      (fillColumn fieldidx a k val).values = (fillColumn fieldidx b k val).values := by
  unfold fillColumn
  cases fieldidx.get? k <;> simp [h.1, h.2]

theorem selectTagLoop_fill (tags : GoMap String) (pfixes : GoMap Bool) (fieldidx : GoMap Nat)
    (evs : List Event) (a b : SelAcc) (h : a.flds = b.flds ∧ a.values = b.values) :
    (selectTagLoop tags pfixes fieldidx a evs).flds =
        (fillAll fieldidx b ((decoded evs).filter (unblocked tags pfixes))).flds ∧
      (selectTagLoop tags pfixes fieldidx a evs).values =
        (fillAll fieldidx b ((decoded evs).filter (unblocked tags pfixes))).values := by
  induction evs generalizing a b with
  | nil => simpa [selectTagLoop, decoded, fillAll] using h
  | cons e evs ih =>
    cases e with
    | none => simpa [selectTagLoop, decoded] using ih a b h
    | some p =>
      obtain ⟨k, val⟩ := p
      simp only [selectTagLoop, decoded, List.reduceOption_cons_of_some] at ih ⊢
      rw [selectTag_eq]
      cases hu : unblocked tags pfixes (k, val)
      · simpa [List.filter_cons, hu] using ih a b h
      · simp only [List.filter_cons, hu, if_true, fillAll, List.foldl_cons]
        exact ih _ _ (fillColumn_congr fieldidx _ b k val h)

theorem selectFieldLoop_fill (fieldidx : GoMap Nat) (evs : List Event) (a b : SelAcc)
    (h : a.flds = b.flds ∧ a.values = b.values) :
    (selectFieldLoop fieldidx a evs).flds = (fillAll fieldidx b (decoded evs)).flds ∧
      (selectFieldLoop fieldidx a evs).values = (fillAll fieldidx b (decoded evs)).values := by
  induction evs generalizing a b with
  | nil => simpa [selectFieldLoop, decoded, fillAll] using h
  | cons e evs ih =>
    cases e with
    | none => simpa [selectFieldLoop, decoded] using ih a b h
    | some p =>
      obtain ⟨k, val⟩ := p
      simp only [selectFieldLoop, decoded, List.reduceOption_cons_of_some, fillAll,
        List.foldl_cons] at ih ⊢
      exact ih _ _ (fillColumn_congr fieldidx a b k val h)

theorem selectPasses_fill (tags : GoMap String) (pfixes : GoMap Bool) (fields : List String)
    (r : Record) :
    (selectPasses tags pfixes fields r).flds =
        (fillAll (buildFieldIdx fields 0 []) ⟨0, 0, List.replicate fields.length ""⟩
          (fillPairs tags pfixes r)).flds ∧
      (selectPasses tags pfixes fields r).values =
        (fillAll (buildFieldIdx fields 0 []) ⟨0, 0, List.replicate fields.length ""⟩
          (fillPairs tags pfixes r)).values := by
  unfold selectPasses fillPairs
  have h1 := selectTagLoop_fill tags pfixes (buildFieldIdx fields 0 []) r.tags
    ⟨0, 0, List.replicate fields.length ""⟩ ⟨0, 0, List.replicate fields.length ""⟩ ⟨rfl, rfl⟩
  have h2 := selectFieldLoop_fill (buildFieldIdx fields 0 []) r.fields _ _ h1
  simpa [fillAll, List.foldl_append] using h2

theorem fillPairs_nodup (tags : GoMap String) (pfixes : GoMap Bool) (r : Record)
    (ht : (streamKeys r.tags).Nodup) (hfl : (streamKeys r.fields).Nodup)
    (hdisj : ∀ k, k ∈ streamKeys r.tags → k ∉ streamKeys r.fields) :
    ((fillPairs tags pfixes r).map Prod.fst).Nodup := by
  unfold fillPairs
  rw [List.map_append]
  have hsub : (((decoded r.tags).filter (unblocked tags pfixes)).map Prod.fst).Sublist
      (streamKeys r.tags) := (List.filter_sublist _).map Prod.fst
  refine List.Nodup.append (hsub.nodup ht) hfl ?_
  intro k hk1 hk2
  exact hdisj k (hsub.subset hk1) hk2

theorem mem_fillPairs (tags : GoMap String) (pfixes : GoMap Bool) (r : Record)
    (p : String × String) (h : p ∈ fillPairs tags pfixes r) :
    p ∈ decoded r.tags ∨ p ∈ decoded r.fields := by
  unfold fillPairs at h
  rcases List.mem_append.1 h with h | h
  · exact Or.inl (List.mem_filter.1 h).1
  · exact Or.inr h

/-- With distinct requested columns and distinct keys among the pairs that
reach the column fill, `flds` reaches `len(fields)` exactly when every
requested column is the key of such a pair. -/
theorem flds_eq_iff (fields : List String) (hf : fields.Nodup)
    (pairs : List (String × String)) (hp : (pairs.map Prod.fst).Nodup) :
    (fillAll (buildFieldIdx fields 0 []) ⟨0, 0, List.replicate fields.length ""⟩ pairs).flds
        = fields.length ↔ ∀ k ∈ fields, k ∈ pairs.map Prod.fst := by
  rw [fillAll_flds]
  have hsome : ∀ k, ((buildFieldIdx fields 0 []).get? k).isSome = true ↔ k ∈ fields := by
    intro k
    rw [buildFieldIdx_get? fields hf]
    by_cases hk : k ∈ fields <;> simp [hk, GoMap.get?]
  set hit := pairs.filter (fun p => ((buildFieldIdx fields 0 []).get? p.1).isSome) with hhit
  have hKnodup : (hit.map Prod.fst).Nodup := ((List.filter_sublist pairs).map Prod.fst).nodup hp
  have hKsub : hit.map Prod.fst ⊆ fields := by
    intro k hk
    obtain ⟨p, hp', rfl⟩ := List.mem_map.1 hk
    exact (hsome _).1 (List.mem_filter.1 hp').2
  have hsp := List.subperm_of_subset hKnodup hKsub
  have hlen : hit.length = (hit.map Prod.fst).length := by simp
  simp only [Nat.zero_add]
  constructor
  · intro h k hk
    have hperm := hsp.perm_of_length_le (by omega)
    obtain ⟨p, hp', rfl⟩ := List.mem_map.1 (hperm.symm.subset hk)
    exact List.mem_map_of_mem Prod.fst (List.mem_filter.1 hp').1
  · intro h
    have hsub2 : fields ⊆ hit.map Prod.fst := by
      intro k hk
      obtain ⟨p, hp', rfl⟩ := List.mem_map.1 (h k hk)
      exact List.mem_map_of_mem Prod.fst
        (List.mem_filter.2 ⟨hp', by simpa using (hsome p.1).2 hk⟩)
    have h1 := (List.subperm_of_subset hf hsub2).length_le
    have h2 := hsp.length_le
    omega

/-- C2: `Select` emits a row with an unfilled position. The requested columns
are `k` and `j`; the record `m,k=a k=b` passes the (empty) filter and has no
`j`, yet `flds` is incremented once for the tag `k` and once for the field
`k`, reaches `len(fields)`, and the row goes out with the empty string at the
position of `j`. -/
theorem select_emits_partial_row :
    "j" ∉ streamKeys [some ("k", "a")] ∧ "j" ∉ streamKeys [some ("k", "b")] ∧
    (selectPasses [] [] ["k", "j"] ⟨some "m", [some ("k", "a")], [some ("k", "b")]⟩).flds = 2 ∧
    selectRecord none [] [] ["k", "j"] ⟨some "m", [some ("k", "a")], [some ("k", "b")]⟩
      = some ["b", ""] ∧
    (Select "" [] [] ["k", "j"] [⟨some "m", [some ("k", "a")], [some ("k", "b")]⟩]).sent
      = [["b", ""]] := by
  decide

/-- C3: `Select` drops a record whose requested column `k` is both a tag and a
field. The record `m,k=a k=b` has the only requested column, but `flds` ends
at 2 instead of `len(fields) = 1`, so no row is sent. -/
theorem select_drops_colliding_record :
    (selectPasses [] [] ["k"] ⟨some "m", [some ("k", "a")], [some ("k", "b")]⟩).flds = 2 ∧
    (selectPasses [] [] ["k"] ⟨some "m", [some ("k", "a")], [some ("k", "b")]⟩).values = ["b"] ∧
    selectRecord none [] [] ["k"] ⟨some "m", [some ("k", "a")], [some ("k", "b")]⟩ = none ∧
    (Select "" [] [] ["k"] [⟨some "m", [some ("k", "a")], [some ("k", "b")]⟩]).sent = [] := by
  decide

/-- C4: for distinct requested columns and a record whose keys are unique
within each stream and never shared between tags and fields, every row that
`Select` emits for the record has one entry per requested column, and entry
`i` is the value of the record's tag or field whose key is the `i`-th
requested column. -/
theorem select_row_positions (frm : Option String) (tags : GoMap String)
    (pfixes : GoMap Bool) (fields : List String) (r : Record) (row : List String)
    (hf : fields.Nodup) (ht : (streamKeys r.tags).Nodup) (hfl : (streamKeys r.fields).Nodup)
    (hdisj : ∀ k, k ∈ streamKeys r.tags → k ∉ streamKeys r.fields)
    (hrow : selectRecord frm tags pfixes fields r = some row) :
    row.length = fields.length ∧
      ∀ i (hi : i < fields.length), ∃ v, row[i]? = some v ∧
        ((fields[i], v) ∈ decoded r.tags ∨ (fields[i], v) ∈ decoded r.fields) := by
  unfold selectRecord at hrow
  cases hm : r.measurement with
  | none => simp [hm] at hrow
  | some m =>
    simp only [hm] at hrow
    split at hrow
    · cases hrow
    · split at hrow
      · cases hrow
      · rename_i hcond
        injection hrow with hrow
        have hflds : (selectPasses tags pfixes fields r).flds = fields.length := by
          by_contra hne
          exact hcond (Or.inr hne)
        obtain ⟨e1, e2⟩ := selectPasses_fill tags pfixes fields r
        have hnodup := fillPairs_nodup tags pfixes r ht hfl hdisj
        rw [e1] at hflds
        have hall := (flds_eq_iff fields hf _ hnodup).1 hflds
        subst hrow
        rw [e2]
        refine ⟨by rw [fillAll_length]; simp, ?_⟩
        intro i hi
        obtain ⟨p, hp, hpk⟩ := List.mem_map.1 (hall fields[i] (List.getElem_mem hi))
        have hidx : (buildFieldIdx fields 0 []).get? fields[i] = some i :=
          (fieldidx_get?_iff fields hf _ i).2 (List.getElem?_eq_getElem hi)
        have hinj : ∀ k k' j, (buildFieldIdx fields 0 []).get? k = some j →
            (buildFieldIdx fields 0 []).get? k' = some j → k = k' := by
          intro k k' j h1 h2
          rw [fieldidx_get?_iff fields hf] at h1 h2
          rw [h1] at h2
          exact Option.some.inj h2
        have hmem : (fields[i], p.2) ∈ fillPairs tags pfixes r := by
          rw [← hpk]; exact hp
        refine ⟨p.2, ?_, mem_fillPairs tags pfixes r _ hmem⟩
        exact fillAll_filled _ hinj i fields[i] p.2 hidx _ hnodup hmem _ (by simpa using hi)

/-- Witness for C4: the columns `host`, `value` on the record
`cpu,host=a,region=us value=1` under the filter `region=us`. -/
theorem select_row_positions_witness :
    selectRecord none [("region", "us")] [] ["host", "value"]
        ⟨some "cpu", [some ("host", "a"), some ("region", "us")], [some ("value", "1")]⟩
      = some ["a", "1"] ∧
    (["a", "1"] : List String).length = (["host", "value"] : List String).length ∧
      ∀ i (hi : i < (["host", "value"] : List String).length), ∃ v,
        (["a", "1"] : List String)[i]? = some v ∧
        (((["host", "value"] : List String)[i], v) ∈
            decoded [some ("host", "a"), some ("region", "us")] ∨
          ((["host", "value"] : List String)[i], v) ∈ decoded [some ("value", "1")]) :=
  ⟨by decide,
    select_row_positions none [("region", "us")] [] ["host", "value"]
      ⟨some "cpu", [some ("host", "a"), some ("region", "us")], [some ("value", "1")]⟩
      ["a", "1"] (by decide) (by decide) (by decide) (by decide) (by decide)⟩

/-! ## The aggregation cap -/

theorem firstDistinct_snoc (l : List String) (v : String) :
    firstDistinct (l ++ [v]) =
      if v ∈ firstDistinct l then firstDistinct l else firstDistinct l ++ [v] := by
  simp [firstDistinct, List.foldl_append]

theorem firstDistinct_isPrefix (a b : List String) :
    firstDistinct a <+: firstDistinct (a ++ b) := by
  induction b using List.reverseRecOn with
  | nil => simp
  | append_singleton b v ih =>
    rw [← List.append_assoc, firstDistinct_snoc]
    split
    · exact ih
    · exact ih.trans (List.prefix_append _ _)

theorem observed_snoc (f : String) (es : List (String × String)) (e : String × String) :
    observed f (es ++ [e]) = if e.1 = f then observed f es ++ [e.2] else observed f es := by
  unfold observed
  rw [List.filterMap_append]
  by_cases h : e.1 = f <;> simp [h]

theorem tracked_tally_other (T : GoMap (GoMap Nat)) (tag value f : String) (h : tag ≠ f) :
    tracked (tally T tag value) f = tracked T f := by
  unfold tracked tally GoMap.getD
  cases hg : T.get? tag with
  | none => simp [GoMap.get?_set, h]
  | some m =>
    simp only
    split
    · simp [GoMap.get?_set, h]
    · rfl

/-- One step of the summary loop keeps every facet's tracked values equal to
the first 20 distinct values observed so far. -/
theorem tally_tracked (T : GoMap (GoMap Nat)) (es : List (String × String))
    (hT : ∀ f, tracked T f = (firstDistinct (observed f es)).take 20)
    (hnone : ∀ f, T.get? f = none → observed f es = [])
    (tag value : String) :
    (∀ f, tracked (tally T tag value) f =
        (firstDistinct (observed f (es ++ [(tag, value)]))).take 20) ∧
      (∀ f, (tally T tag value).get? f = none → observed f (es ++ [(tag, value)]) = []) := by
  constructor
  · intro f
    rw [observed_snoc]
    by_cases hf : tag = f
    · subst hf
      simp only [if_true]
      rw [firstDistinct_snoc]
      have hK := hT tag
      unfold tracked GoMap.getD at hK ⊢
      unfold tally
      cases hg : T.get? tag with
      | none =>
        have := hnone tag hg
        simp [GoMap.get?_set, this, firstDistinct, GoMap.keys]
      | some m =>
        rw [hg] at hK
        simp only [Option.getD_some] at hK
        simp only
        by_cases hmem : value ∈ m.keys
        · have hsome : (m.get? value).isSome = true := (GoMap.get?_isSome_iff m value).2 hmem
          have hin : value ∈ firstDistinct (observed tag es) := by
            rw [hK] at hmem
            exact List.mem_of_mem_take hmem
          simp [hsome, GoMap.get?_set, GoMap.keys_set_of_mem m value _ hmem, hin, hK]
        · have hnot : (m.get? value).isSome = false := by
            cases h : (m.get? value).isSome
            · rfl
            · exact absurd ((GoMap.get?_isSome_iff m value).1 h) hmem
          have hlen : m.len = m.keys.length := by simp [GoMap.len, GoMap.keys]
          by_cases hlt : m.len < 20
          · have hshort : (firstDistinct (observed tag es)).length < 20 := by
              by_contra hge
              have : m.keys.length = 20 := by
                rw [hK, List.length_take]; omega
              omega
            have hall : m.keys = firstDistinct (observed tag es) := by
              rw [hK, List.take_of_length_le (by omega)]
            have hnin : value ∉ firstDistinct (observed tag es) := by
              rw [← hall]; exact hmem
            simp only [hnot, hlt, decide_True, Bool.or_true, if_true, GoMap.get?_set,
              Option.getD_some, GoMap.keys_set_of_not_mem m value _ hmem, hnin, if_false]
            rw [List.take_of_length_le (by simp; omega), hall]
          · have hge : 20 ≤ (firstDistinct (observed tag es)).length := by
              by_contra hlt2
              have : m.keys.length = (firstDistinct (observed tag es)).length := by
                rw [hK, List.length_take]; omega
              omega
            simp only [hnot, hlt, decide_False, Bool.or_false, Bool.false_eq_true, if_false,
              hg, Option.getD_some, hK]
            split
            · rfl
            · rw [List.take_append_of_le_length hge]
    · rw [tracked_tally_other T tag value f hf]
      simp [hf, hT f]
  · intro f hnf
    by_cases hf : tag = f
    · subst hf
      exfalso
      unfold tally at hnf
      cases hg : T.get? tag with
      | none => simp [hg, GoMap.get?_set] at hnf
      | some m =>
        simp only [hg] at hnf
        split at hnf
        · simp [GoMap.get?_set] at hnf
        · rw [hg] at hnf; cases hnf
    · rw [observed_snoc]
      simp only [hf, if_false]
      apply hnone
      unfold tally at hnf
      cases hg : T.get? tag with
      | none => simpa [hg, GoMap.get?_set, hf] using hnf
      | some m =>
        simp only [hg] at hnf
        split at hnf
        · simpa [GoMap.get?_set, hf] using hnf
        · exact hnf

theorem tally_fold_tracked (es : List (String × String)) (T : GoMap (GoMap Nat))
    (pre : List (String × String))
    (hT : ∀ f, tracked T f = (firstDistinct (observed f pre)).take 20)
    (hnone : ∀ f, T.get? f = none → observed f pre = []) :
    ∀ f, tracked (es.foldl (fun T e => tally T e.1 e.2) T) f =
      (firstDistinct (observed f (pre ++ es))).take 20 := by
  induction es generalizing T pre with
  | nil => simpa using hT
  | cons e es ih =>
    obtain ⟨h1, h2⟩ := tally_tracked T pre hT hnone e.1 e.2
    have := ih (tally T e.1 e.2) (pre ++ [e]) h1 h2
    simpa using this

theorem tallyRecord_tagvals (tvs : List (String × String)) (st : Tally) :
    (tallyRecord st tvs).tagvals = tvs.foldl (fun T e => tally T e.1 e.2) st.tagvals := by
  induction tvs generalizing st with
  | nil => rfl
  | cons e tvs ih =>
    simp only [tallyRecord, List.foldl_cons] at ih ⊢
    rw [ih]

theorem summaryLoop_tagvals_aux (tvss : List (List (String × String))) (st : Tally) :
    (tvss.foldl tallyRecord st).tagvals =
      (visited tvss).foldl (fun T e => tally T e.1 e.2) st.tagvals := by
  induction tvss generalizing st with
  | nil => rfl
  | cons tvs tvss ih =>
    simp only [List.foldl_cons, visited, List.flatten_cons, List.foldl_append] at ih ⊢
    rw [ih, tallyRecord_tagvals]

theorem summaryLoop_tagvals (tvss : List (List (String × String))) :
    (summaryLoop tvss).tagvals = (visited tvss).foldl (fun T e => tally T e.1 e.2) [] :=
  summaryLoop_tagvals_aux tvss ⟨[], 0⟩

theorem mem_firstDistinct (l : List String) (v : String) : v ∈ firstDistinct l ↔ v ∈ l := by
  induction l using List.reverseRecOn with
  | nil => simp [firstDistinct]
  | append_singleton l w ih =>
    rw [firstDistinct_snoc]
    by_cases hw : w ∈ firstDistinct l
    · simp only [hw, if_true, List.mem_append, List.mem_singleton]
      constructor
      · intro h; exact Or.inl (ih.1 h)
      · rintro (h | h)
        · exact ih.2 h
        · subst h; exact hw
    · simp [hw, ih]

theorem firstDistinct_nodup (l : List String) : (firstDistinct l).Nodup := by
  induction l using List.reverseRecOn with
  | nil => simp [firstDistinct]
  | append_singleton l w ih =>
    rw [firstDistinct_snoc]
    by_cases hw : w ∈ firstDistinct l
    · simpa [hw] using ih
    · simp only [hw, if_false]
      exact List.Nodup.append ih (List.nodup_singleton w) (by simpa using hw)

/-- C5: whatever facet maps the summary loop of `main` has folded so far, and
in whatever order it visited their entries, every facet tracks at most 20
values, they are exactly the first 20 distinct values the facet took in the
order of the records (`firstDistinct` lists each observed value once, in the
order of first occurrence), and once a facet tracks 20 values no further
input changes the values it tracks. The sequence is arbitrary, so the
statement holds after every step of the loop. -/
theorem summary_cap (tvss : List (List (String × String))) (f : String) :
    (tracked (summaryLoop tvss).tagvals f).length ≤ 20 ∧
    tracked (summaryLoop tvss).tagvals f =
      (firstDistinct (observed f (visited tvss))).take 20 ∧
    (firstDistinct (observed f (visited tvss))).Nodup ∧
    (∀ v, v ∈ firstDistinct (observed f (visited tvss)) ↔ v ∈ observed f (visited tvss)) ∧
    (∀ more, (tracked (summaryLoop tvss).tagvals f).length = 20 →
      tracked (summaryLoop (tvss ++ more)).tagvals f = tracked (summaryLoop tvss).tagvals f) := by
  have key : ∀ tvss : List (List (String × String)),
      tracked (summaryLoop tvss).tagvals f =
        (firstDistinct (observed f (visited tvss))).take 20 := by
    intro tvss
    rw [summaryLoop_tagvals]
    have := tally_fold_tracked (visited tvss) [] []
      (by intro g; simp [tracked, GoMap.getD, GoMap.get?, GoMap.keys, observed, firstDistinct])
      (by intro g _; simp [observed]) f
    simpa using this
  refine ⟨?_, key tvss, firstDistinct_nodup _, mem_firstDistinct _, ?_⟩
  · rw [key]; simp [List.length_take]
  · intro more hlen
    rw [key] at hlen ⊢
    rw [key]
    have hobs : observed f (visited (tvss ++ more)) =
        observed f (visited tvss) ++ observed f (visited more) := by
      simp [visited, observed, List.filterMap_append]
    rw [hobs]
    obtain ⟨t, ht⟩ := firstDistinct_isPrefix (observed f (visited tvss)) (observed f (visited more))
    rw [← ht]
    have hge : 20 ≤ (firstDistinct (observed f (visited tvss))).length := by
      rw [List.length_take] at hlen; omega
    rw [List.take_append_of_le_length hge]

/-- Witness for C5: after twenty records with twenty different values of the
facet `h`, a record with a new value leaves the tracked values unchanged. -/
theorem summary_cap_witness :
    (tracked (summaryLoop twentyHosts).tagvals "h").length = 20 ∧
    tracked (summaryLoop (twentyHosts ++ [[("", "cpu"), ("h", "u")]])).tagvals "h" =
      tracked (summaryLoop twentyHosts).tagvals "h" :=
  ⟨by decide, (summary_cap twentyHosts "h").2.2.2.2 [[("", "cpu"), ("h", "u")]] (by decide)⟩

/-! ## Skip and limit -/

/-- C6: with `-lim 0` the projection loop of `main` writes rows although the
limit is zero: `*fLim--` wraps from 0 to `math.MaxUint` before the test
`*fLim == 0`, so the loop does not stop and both rows are written. -/
theorem project_limit_zero_writes :
    (project 0 0 [["a"], ["b"]]).1.written = [["a"], ["b"]] ∧
    (project 0 0 [["a"], ["b"]]).1.N = 2 ∧
    (project 0 0 [["a"], ["b"]]).1.fLim = maxUint - 1 ∧
    ¬ ((project 0 0 [["a"], ["b"]]).1.written.length ≤ 0) := by
  decide

/-! ## The measurement restriction -/

theorem fromOf_of_ne (fM : String) (h : fM ≠ "") : fromOf fM = some fM := by
  simp [fromOf, h]

theorem selectRecord_measurement (fM : String) (tags : GoMap String) (pfixes : GoMap Bool)
    (fields : List String) (r : Record) (row : List String)
    (h : selectRecord (some fM) tags pfixes fields r = some row) :
    r.measurement = some fM := by
  unfold selectRecord at h
  cases hm : r.measurement with
  | none => simp [hm] at h
  | some m =>
    simp only [hm] at h
    by_cases heq : fM = m
    · rw [heq]
    · simp [otherMeasurement, heq] at h

theorem summaryRecord_measurement (fM : String) (tags : GoMap String) (pfixes : GoMap Bool)
    (r : Record) (values : GoMap String)
    (h : summaryRecord (some fM) tags pfixes r = some values) :
    r.measurement = some fM := by
  unfold summaryRecord at h
  cases hm : r.measurement with
  | none => simp [hm] at h
  | some m =>
    simp only [hm] at h
    by_cases heq : fM = m
    · rw [heq]
    · simp [otherMeasurement, heq] at h

theorem select_fold (frm : Option String) (tags : GoMap String) (pfixes : GoMap Bool)
    (fields : List String) (recs : List Record) (st : Producer (List String)) :
    (recs.foldl (selectStep frm tags pfixes fields) st).sent =
        st.sent ++ recs.filterMap (selectRecord frm tags pfixes fields) ∧
      (recs.foldl (selectStep frm tags pfixes fields) st).n =
        st.n + (recs.filterMap (selectRecord frm tags pfixes fields)).length ∧
      (recs.foldl (selectStep frm tags pfixes fields) st).recno = st.recno + recs.length := by
  induction recs generalizing st with
  | nil => simp
  | cons r recs ih =>
    simp only [List.foldl_cons]
    obtain ⟨h1, h2, h3⟩ := ih (selectStep frm tags pfixes fields st r)
    rw [h1, h2, h3]
    unfold selectStep
    cases hrec : selectRecord frm tags pfixes fields r with
    | none => simp [List.filterMap_cons, hrec]; omega
    | some row => simp [List.filterMap_cons, hrec]; omega

theorem summary_fold (frm : Option String) (tags : GoMap String) (pfixes : GoMap Bool)
    (recs : List Record) (st : Producer (GoMap String)) :
    (recs.foldl (summaryStep frm tags pfixes) st).sent =
        st.sent ++ recs.filterMap (summaryRecord frm tags pfixes) ∧
      (recs.foldl (summaryStep frm tags pfixes) st).n =
        st.n + (recs.filterMap (summaryRecord frm tags pfixes)).length ∧
      (recs.foldl (summaryStep frm tags pfixes) st).recno = st.recno + recs.length := by
  induction recs generalizing st with
  | nil => simp
  | cons r recs ih =>
    simp only [List.foldl_cons]
    obtain ⟨h1, h2, h3⟩ := ih (summaryStep frm tags pfixes st r)
    rw [h1, h2, h3]
    unfold summaryStep
    cases hrec : summaryRecord frm tags pfixes r with
    | none => simp [List.filterMap_cons, hrec]; omega
    | some row => simp [List.filterMap_cons, hrec]; omega

theorem selectRecord_other (fM : String) (tags : GoMap String) (pfixes : GoMap Bool)
    (fields : List String) (r : Record) (h : r.measurement ≠ some fM) :
    selectRecord (some fM) tags pfixes fields r = none := by
  cases hrec : selectRecord (some fM) tags pfixes fields r with
  | none => rfl
  | some row => exact absurd (selectRecord_measurement fM tags pfixes fields r row hrec) h

theorem summaryRecord_other (fM : String) (tags : GoMap String) (pfixes : GoMap Bool)
    (r : Record) (h : r.measurement ≠ some fM) :
    summaryRecord (some fM) tags pfixes r = none := by
  cases hrec : summaryRecord (some fM) tags pfixes r with
  | none => rfl
  | some row => exact absurd (summaryRecord_measurement fM tags pfixes r row hrec) h

theorem filterMap_filter_measurement {α : Type} (fM : String) (g : Record → Option α)
    (hg : ∀ r, r.measurement ≠ some fM → g r = none) (recs : List Record) :
    (recs.filter (fun r => decide (r.measurement = some fM))).filterMap g = recs.filterMap g := by
  induction recs with
  | nil => rfl
  | cons r recs ih =>
    by_cases h : r.measurement = some fM
    · simp [List.filter_cons, h, List.filterMap_cons, ih]
    · simp [List.filter_cons, h, List.filterMap_cons, ih, hg r h]

/-- C7: with a non-empty measurement restriction `fM`, every row sent by
`Select` and every facet map sent by `Summary` is produced from a record of
the input whose measurement equals `fM`; an iteration on a record of another
measurement leaves `n` and the sent values as they are and increments
`recno`; hence `n` and the output are those of the input restricted to the
records of measurement `fM`, while `recno` counts every record. -/
theorem measurement_restriction (fM : String) (hM : fM ≠ "") (tags : GoMap String)
    (pfixes : GoMap Bool) (fields : List String) (recs : List Record) :
    (∀ row ∈ (Select fM tags pfixes fields recs).sent, ∃ r ∈ recs,
        r.measurement = some fM ∧ selectRecord (fromOf fM) tags pfixes fields r = some row) ∧
    (∀ values ∈ (Summary fM tags pfixes recs).sent, ∃ r ∈ recs,
        r.measurement = some fM ∧ summaryRecord (fromOf fM) tags pfixes r = some values) ∧
    (∀ (st : Producer (List String)) (r : Record), r.measurement ≠ some fM →
        (selectStep (fromOf fM) tags pfixes fields st r).sent = st.sent ∧
        (selectStep (fromOf fM) tags pfixes fields st r).n = st.n ∧
        (selectStep (fromOf fM) tags pfixes fields st r).recno = st.recno + 1) ∧
    (∀ (st : Producer (GoMap String)) (r : Record), r.measurement ≠ some fM →
        (summaryStep (fromOf fM) tags pfixes st r).sent = st.sent ∧
        (summaryStep (fromOf fM) tags pfixes st r).n = st.n ∧
        (summaryStep (fromOf fM) tags pfixes st r).recno = st.recno + 1) ∧
    ((Select fM tags pfixes fields recs).sent =
        (Select fM tags pfixes fields
          (recs.filter (fun r => decide (r.measurement = some fM)))).sent ∧
      (Select fM tags pfixes fields recs).n =
        (Select fM tags pfixes fields
          (recs.filter (fun r => decide (r.measurement = some fM)))).n ∧
      (Select fM tags pfixes fields recs).recno = recs.length) ∧
    ((Summary fM tags pfixes recs).sent =
        (Summary fM tags pfixes (recs.filter (fun r => decide (r.measurement = some fM)))).sent ∧
      (Summary fM tags pfixes recs).n =
        (Summary fM tags pfixes (recs.filter (fun r => decide (r.measurement = some fM)))).n ∧
      (Summary fM tags pfixes recs).recno = recs.length) := by
  have hfrom := fromOf_of_ne fM hM
  have hsel := fun rs => select_fold (some fM) tags pfixes fields rs ⟨[], 0, 0⟩
  have hsum := fun rs => summary_fold (some fM) tags pfixes rs ⟨[], 0, 0⟩
  have e1 := filterMap_filter_measurement fM (selectRecord (some fM) tags pfixes fields)
    (fun r h => selectRecord_other fM tags pfixes fields r h) recs
  have e2 := filterMap_filter_measurement fM (summaryRecord (some fM) tags pfixes)
    (fun r h => summaryRecord_other fM tags pfixes r h) recs
  unfold Select Summary
  rw [hfrom]
  refine ⟨?_, ?_, ?_, ?_, ?_, ?_⟩
  · intro row hrow
    rw [(hsel recs).1] at hrow
    simp only [List.nil_append, List.mem_filterMap] at hrow
    obtain ⟨r, hr, hrr⟩ := hrow
    exact ⟨r, hr, selectRecord_measurement fM tags pfixes fields r row hrr, hrr⟩
  · intro values hv
    rw [(hsum recs).1] at hv
    simp only [List.nil_append, List.mem_filterMap] at hv
    obtain ⟨r, hr, hrr⟩ := hv
    exact ⟨r, hr, summaryRecord_measurement fM tags pfixes r values hrr, hrr⟩
  · intro st r hr
    simp [selectStep, selectRecord_other fM tags pfixes fields r hr]
  · intro st r hr
    simp [summaryStep, summaryRecord_other fM tags pfixes r hr]
  · rw [(hsel recs).1, (hsel recs).2.1, (hsel recs).2.2, (hsel _).1, (hsel _).2.1, e1]
    simp
  · rw [(hsum recs).1, (hsum recs).2.1, (hsum recs).2.2, (hsum _).1, (hsum _).2.1, e2]
    simp

/-- Witness for C7: the restriction `cpu` on two `cpu` records and one `mem`
record: one row is sent, `n` is 1 and `recno` is 3. -/
theorem measurement_restriction_witness :
    ("cpu" : String) ≠ "" ∧
    (Select "cpu" [("region", "us")] [] ["host", "value"]
      [⟨some "cpu", [some ("host", "a"), some ("region", "us")], [some ("value", "1")]⟩,
       ⟨some "mem", [some ("host", "a"), some ("region", "us")], [some ("value", "9")]⟩,
       ⟨some "cpu", [some ("host", "b"), some ("region", "eu")], [some ("value", "2")]⟩]).recno
      = 3 :=
  ⟨by decide,
    (measurement_restriction "cpu" (by decide) [("region", "us")] [] ["host", "value"]
      [⟨some "cpu", [some ("host", "a"), some ("region", "us")], [some ("value", "1")]⟩,
       ⟨some "mem", [some ("host", "a"), some ("region", "us")], [some ("value", "9")]⟩,
       ⟨some "cpu", [some ("host", "b"), some ("region", "eu")], [some ("value", "2")]⟩]).2.2.2.2.1.2.2⟩

/-! ## The filter arguments -/

theorem afterSep_of_mem (c : Char) (l : List Char) (h : c ∈ l) :
    ∃ rest, afterSep c l = some rest := by
  induction l with
  | nil => simp at h
  | cons x xs ih =>
    by_cases hx : x = c
    · exact ⟨xs, by simp [afterSep, hx]⟩
    · rcases List.mem_cons.1 h with h1 | h1
      · exact absurd h1.symm hx
      · obtain ⟨rest, hrest⟩ := ih h1
        exact ⟨rest, by simp [afterSep, hx, hrest]⟩

theorem splitN2_of_contains (a : String) (c : Char) (h : containsRune a c = true) :
    splitN2 a c =
      [String.mk (beforeSep c a.data), String.mk ((afterSep c a.data).getD [])] := by
  obtain ⟨rest, hrest⟩ := afterSep_of_mem c a.data (List.elem_iff.1 h)
  simp [splitN2, hrest]

theorem parseEq_eq (filter : GoMap String) (pfxes : GoMap Bool) (a : String)
    (h : containsRune a '=' = true) :
    parseEq filter pfxes a =
      if (filter.get? (termKey a)).isSome then .error (.duplicateTag (termKey a))
      else .ok (filter.set (termKey a) (termValue a),
        if termValue a = "" then pfxes.set (termKey a) true else pfxes) := by
  simp [parseEq, splitN2_of_contains a '=' h, termKey, termValue, termSep, h]

theorem parseTilde_eq (filter : GoMap String) (pfxes : GoMap Bool) (a : String)
    (h0 : containsRune a '=' = false) (h : containsRune a '~' = true) :
    parseTilde filter pfxes a =
      if (filter.get? (termKey a)).isSome then .error (.duplicateTag (termKey a))
      else .ok (filter.set (termKey a) (termValue a), pfxes.set (termKey a) true) := by
  simp [parseTilde, splitN2_of_contains a '~' h, termKey, termValue, termSep, h0]

/-- One filter term of the argument loop, as a step on `filter` and `pfxes`. -/
theorem parseLoop_term (filter : GoMap String) (pfxes : GoMap Bool) (a : String)
    (rest : List String) (h : isFilterTerm a = true) :
    parseLoop filter pfxes (a :: rest) =
      if (filter.get? (termKey a)).isSome then .error (.duplicateTag (termKey a))
      else parseLoop (filter.set (termKey a) (termValue a))
        (if containsRune a '=' = false ∨ termValue a = "" then pfxes.set (termKey a) true
          else pfxes) rest := by
  unfold isFilterTerm at h
  cases h0 : containsRune a '='
  · have h1 : containsRune a '~' = true := by simpa [h0] using h
    cases hs : (filter.get? (termKey a)).isSome <;>
      simp [parseLoop, h0, h1, parseTilde_eq filter pfxes a h0 h1, hs]
  · cases hs : (filter.get? (termKey a)).isSome <;>
      simp [parseLoop, h0, parseEq_eq filter pfxes a h0, hs]

theorem parseLoop_stop (filter : GoMap String) (pfxes : GoMap Bool) (a : String)
    (rest : List String) (h : isFilterTerm a = false) :
    parseLoop filter pfxes (a :: rest) = .ok ⟨filter, pfxes, a :: rest⟩ := by
  unfold isFilterTerm at h
  simp only [Bool.or_eq_false_iff] at h
  simp [parseLoop, h.1, h.2]

theorem getD_set_true (pfxes : GoMap Bool) (k k' : String)
    (h : pfxes.getD k' false = true) : (pfxes.set k true).getD k' false = true := by
  unfold GoMap.getD at h ⊢
  rw [GoMap.get?_set]
  split
  · rfl
  · exact h

/-- The argument loop of `main`, characterised: it stops with a fatal
duplicate-tag error when the keys in `filter` and those of the leading filter
terms are not pairwise distinct, and otherwise appends one entry per leading
filter term and leaves the remaining arguments as the column names. -/
theorem parseLoop_spec (args : List String) (filter : GoMap String) (pfxes : GoMap Bool)
    (hf : filter.keys.Nodup) :
    if (filter.keys ++ (leadingTerms args).map termKey).Nodup then
      ∃ pf, parseLoop filter pfxes args =
          .ok ⟨filter ++ (leadingTerms args).map (fun a => (termKey a, termValue a)), pf,
            args.dropWhile isFilterTerm⟩ ∧
        (∀ k, pfxes.getD k false = true → pf.getD k false = true) ∧
        (∀ a ∈ leadingTerms args, containsRune a '=' = false ∨ termValue a = "" →
          pf.getD (termKey a) false = true)
    else ∃ k, parseLoop filter pfxes args = .error (.duplicateTag k) := by
  induction args generalizing filter pfxes with
  | nil =>
    simp only [leadingTerms, List.takeWhile_nil, List.map_nil, List.append_nil]
    rw [if_pos hf]
    exact ⟨pfxes, by simp [parseLoop], fun k h => h, by simp⟩
  | cons a rest ih =>
    cases hterm : isFilterTerm a
    · simp only [leadingTerms, List.takeWhile_cons, hterm, Bool.false_eq_true, if_false,
        List.map_nil, List.append_nil, List.dropWhile_cons]
      rw [if_pos hf]
      exact ⟨pfxes, parseLoop_stop filter pfxes a rest hterm, fun k h => h, by simp⟩
    · rw [parseLoop_term filter pfxes a rest hterm]
      have hlead : leadingTerms (a :: rest) = a :: leadingTerms rest := by
        simp [leadingTerms, List.takeWhile_cons, hterm]
      rw [hlead]
      by_cases hk : termKey a ∈ filter.keys
      · have hsome : (filter.get? (termKey a)).isSome = true :=
          (GoMap.get?_isSome_iff filter _).2 hk
        have hnd : ¬ (filter.keys ++ (a :: leadingTerms rest).map termKey).Nodup := by
          intro h
          rw [List.nodup_append] at h
          exact h.2.2 hk (by simp)
        rw [if_neg hnd]
        exact ⟨termKey a, by simp [hsome]⟩
      · have hnone : (filter.get? (termKey a)).isSome = false := by
          cases h : (filter.get? (termKey a)).isSome
          · rfl
          · exact absurd ((GoMap.get?_isSome_iff filter _).1 h) hk
        simp only [hnone, Bool.false_eq_true, if_false]
        have hset := GoMap.set_of_not_mem filter (termKey a) (termValue a) hk
        have hf' : (filter.set (termKey a) (termValue a)).keys.Nodup :=
          GoMap.keys_nodup_set filter _ _ hf
        have hkeys : (filter.set (termKey a) (termValue a)).keys ++
              (leadingTerms rest).map termKey =
            filter.keys ++ (a :: leadingTerms rest).map termKey := by
          rw [GoMap.keys_set_of_not_mem filter _ _ hk]
          simp
        have := ih (filter.set (termKey a) (termValue a))
          (if containsRune a '=' = false ∨ termValue a = "" then pfxes.set (termKey a) true
            else pfxes) hf'
        rw [hkeys] at this
        by_cases hnd : (filter.keys ++ (a :: leadingTerms rest).map termKey).Nodup
        · rw [if_pos hnd] at this ⊢
          obtain ⟨pf, h1, h2, h3⟩ := this
          refine ⟨pf, ?_, ?_, ?_⟩
          · rw [h1, hset]
            simp [List.dropWhile_cons, hterm]
          · intro k hk'
            apply h2
            split
            · exact getD_set_true pfxes _ _ hk'
            · exact hk'
          · intro b hb hcond
            rcases List.mem_cons.1 hb with rfl | hb'
            · apply h2
              rw [if_pos hcond]
              simp [GoMap.getD, GoMap.get?_set]
            · exact h3 b hb' hcond
        · rw [if_neg hnd] at this ⊢
          exact this

theorem parseArgs_ok (args : List String) (p : Parsed) (h : parseArgs args = .ok p) :
    ((leadingTerms args).map termKey).Nodup ∧
    p.filter = (leadingTerms args).map (fun a => (termKey a, termValue a)) ∧
    p.args = args.dropWhile isFilterTerm ∧
    (∀ a ∈ leadingTerms args, containsRune a '=' = false ∨ termValue a = "" →
      p.pfxes.getD (termKey a) false = true) := by
  have hspec := parseLoop_spec args [] [] (by simp [GoMap.keys])
  unfold parseArgs at h
  simp only [GoMap.keys, List.map_nil, List.nil_append] at hspec
  by_cases hnd : ((leadingTerms args).map termKey).Nodup
  · rw [if_pos hnd] at hspec
    obtain ⟨pf, h1, -, h3⟩ := hspec
    rw [h1] at h
    injection h with h
    subst h
    exact ⟨hnd, rfl, rfl, h3⟩
  · rw [if_neg hnd] at hspec
    obtain ⟨k, hk⟩ := hspec
    rw [hk] at h
    cases h

theorem parseArgs_error (args : List String) (e : Fatal) (h : parseArgs args = .error e) :
    ¬ ((leadingTerms args).map termKey).Nodup ∧ ∃ k, e = .duplicateTag k := by
  have hspec := parseLoop_spec args [] [] (by simp [GoMap.keys])
  unfold parseArgs at h
  simp only [GoMap.keys, List.map_nil, List.nil_append] at hspec
  by_cases hnd : ((leadingTerms args).map termKey).Nodup
  · rw [if_pos hnd] at hspec
    obtain ⟨pf, h1, -, -⟩ := hspec
    rw [h1] at h
    cases h
  · rw [if_neg hnd] at hspec
    obtain ⟨k, hk⟩ := hspec
    rw [hk] at h
    injection h with h
    exact ⟨hnd, k, h.symm⟩

theorem termKey_presence (key : String) (hkey : '=' ∉ key.data) :
    isFilterTerm (key ++ "=") = true ∧ containsRune (key ++ "=") '=' = true ∧
      termKey (key ++ "=") = key ∧ termValue (key ++ "=") = "" := by
  have hc : containsRune (key ++ "=") '=' = true := by
    apply List.elem_iff.2
    simp [String.data_append]
  have hb : ∀ l : List Char, '=' ∉ l → beforeSep '=' (l ++ ['=']) = l ∧
      afterSep '=' (l ++ ['=']) = some [] := by
    intro l hl
    induction l with
    | nil => simp [beforeSep, afterSep]
    | cons x xs ih =>
      simp only [List.mem_cons, not_or] at hl
      have hx : ¬ x = '=' := fun h => hl.1 h.symm
      obtain ⟨i1, i2⟩ := ih hl.2
      simp [beforeSep, afterSep, hx, i1, i2]
  have hd : (key ++ "=").data = key.data ++ ['='] := by simp [String.data_append]
  obtain ⟨b1, b2⟩ := hb key.data hkey
  refine ⟨by simp [isFilterTerm, hc], hc, ?_, ?_⟩
  · simp [termKey, termSep, hc, hd, b1]
  · simp [termValue, termSep, hc, hd, b2]

/-- C8: when `main` has parsed its arguments and one of the leading filter
terms is `key=` (empty value), the resulting filter accepts a record with
pairwise distinct tag keys, in `Select` and in `Summary`, if and only if the
record has a tag with that key, whatever its value, and every other filter
entry is satisfied by the record's tags. -/
theorem presence_only_term (args : List String) (p : Parsed) (key : String)
    (fields : List String) (m : String) (r : Record)
    (hparse : parseArgs args = .ok p) (hkey : '=' ∉ key.data)
    (hterm : (key ++ "=") ∈ leadingTerms args) (hr : (streamKeys r.tags).Nodup) :
    ((selectPasses p.filter p.pfxes fields r).sat = p.filter.len ↔
        key ∈ streamKeys r.tags ∧
        ∀ k v, (k, v) ∈ p.filter → k ≠ key → ∃ val, (k, val) ∈ decoded r.tags ∧
          (if p.pfxes.getD k false = true then ∃ rest : String, val = v ++ rest
           else val = v)) ∧
    ((summaryTagPass p.filter p.pfxes m r).sat = p.filter.len ↔
        key ∈ streamKeys r.tags ∧
        ∀ k v, (k, v) ∈ p.filter → k ≠ key → ∃ val, (k, val) ∈ decoded r.tags ∧
          (if p.pfxes.getD k false = true then ∃ rest : String, val = v ++ rest
           else val = v)) := by
  obtain ⟨hnd, hfilter, -, hpf⟩ := parseArgs_ok args p hparse
  obtain ⟨-, hc, hk, hv⟩ := termKey_presence key hkey
  have hkeys : p.filter.keys.Nodup := by
    rw [hfilter]; simpa [GoMap.keys, Function.comp_def] using hnd
  have hmem : (key, "") ∈ p.filter := by
    rw [hfilter]
    exact List.mem_map.2 ⟨key ++ "=", hterm, by rw [hk, hv]⟩
  have hpfx : p.pfxes.getD key false = true := by
    have := hpf (key ++ "=") hterm (Or.inr hv)
    rwa [hk] at this
  obtain ⟨c1, c2⟩ := sat_eq_len_iff p.filter p.pfxes fields m r hkeys hr
  have hiff : (∀ k v, (k, v) ∈ p.filter → ∃ val, (k, val) ∈ decoded r.tags ∧
        (if p.pfxes.getD k false = true then ∃ rest : String, val = v ++ rest
         else val = v)) ↔
      (key ∈ streamKeys r.tags ∧
        ∀ k v, (k, v) ∈ p.filter → k ≠ key → ∃ val, (k, val) ∈ decoded r.tags ∧
          (if p.pfxes.getD k false = true then ∃ rest : String, val = v ++ rest
           else val = v)) := by
    constructor
    · intro h
      refine ⟨?_, fun k v hkv _ => h k v hkv⟩
      obtain ⟨val, hval, -⟩ := h key "" hmem
      exact List.mem_map.2 ⟨(key, val), hval, rfl⟩
    · rintro ⟨h1, h2⟩ k v hkv
      by_cases hk' : k = key
      · subst hk'
        have hv' : v = "" := by
          have e1 := GoMap.get?_of_mem p.filter hkeys k v hkv
          have e2 := GoMap.get?_of_mem p.filter hkeys k "" hmem
          rw [e1] at e2
          exact Option.some.inj e2
        subst hv'
        obtain ⟨q, hq, hqk⟩ := List.mem_map.1 h1
        refine ⟨q.2, by rw [← hqk]; exact hq, ?_⟩
        rw [if_pos hpfx]
        exact ⟨q.2, rfl⟩
      · exact h2 k v hkv hk'
  exact ⟨c1.trans hiff, c2.trans hiff⟩

/-- Witness for C8: the arguments `region=us host= value` and the record
`cpu,host=b,region=us value=1`. -/
theorem presence_only_term_witness :
    parseArgs ["region=us", "host=", "value"] =
      .ok ⟨[("region", "us"), ("host", "")], [("host", true)], ["value"]⟩ ∧
    ((selectPasses [("region", "us"), ("host", "")] [("host", true)] ["value"]
        ⟨some "cpu", [some ("host", "b"), some ("region", "us")], [some ("value", "1")]⟩).sat
        = 2 ↔
      "host" ∈ streamKeys [some ("host", "b"), some ("region", "us")] ∧
      ∀ k v, (k, v) ∈ ([("region", "us"), ("host", "")] : GoMap String) → k ≠ "host" →
        ∃ val, (k, val) ∈ decoded [some ("host", "b"), some ("region", "us")] ∧
          (if GoMap.getD [("host", true)] k false = true
            then ∃ rest : String, val = v ++ rest else val = v)) :=
  ⟨rfl,
    (presence_only_term ["region=us", "host=", "value"]
      ⟨[("region", "us"), ("host", "")], [("host", true)], ["value"]⟩ "host" ["value"] "cpu"
      ⟨some "cpu", [some ("host", "b"), some ("region", "us")], [some ("value", "1")]⟩
      rfl (by decide) (by decide) (by decide)).1⟩

/-- C9: the argument `host~` (a prefix term with an empty pattern) does not
stop `main`: `strings.SplitN("host~", "~", 2)` has the two parts `host` and
the empty string, so the test `len(parts) != 2` in front of the fatal "Prefix
filter can not be the empty string" is false; parsing ends normally with the
empty prefix configured for `host`, `Select` then accepts every value of the
tag, and no argument list at all reaches that fatal error. -/
theorem empty_prefix_term_accepted :
    parseArgs ["host~", "value"] = .ok ⟨[("host", "")], [("host", true)], ["value"]⟩ ∧
    (Select "" [("host", "")] [("host", true)] ["value"]
      [⟨some "cpu", [some ("host", "b")], [some ("value", "1")]⟩]).sent = [["1"]] ∧
    (∀ (args : List String) (arg : String), parseArgs args ≠ .error (.emptyPrefix arg)) := by
  refine ⟨rfl, by decide, ?_⟩
  intro args arg h
  obtain ⟨-, k, hk⟩ := parseArgs_error args _ h
  cases hk

/-- C10: the argument loop of `main` stops with a fatal error if and only if
two of the leading filter terms name the same key, and the error is then the
duplicate-tag one; when it does not fail, the filter map consists of exactly
one entry, key and configured value, per leading filter term, and the
remaining arguments are the column names. -/
theorem parse_fatal_iff_duplicate (args : List String) :
    ((∃ e, parseArgs args = .error e) ↔ ¬ ((leadingTerms args).map termKey).Nodup) ∧
    (∀ e, parseArgs args = .error e → ∃ k, e = .duplicateTag k) ∧
    (∀ p, parseArgs args = .ok p →
      p.filter = (leadingTerms args).map (fun a => (termKey a, termValue a)) ∧
      p.filter.len = (leadingTerms args).length ∧
      p.filter.keys.Nodup ∧
      p.args = args.dropWhile isFilterTerm) := by
  refine ⟨⟨?_, ?_⟩, ?_, ?_⟩
  · rintro ⟨e, he⟩
    exact (parseArgs_error args e he).1
  · intro hnd
    cases h : parseArgs args with
    | error e => exact ⟨e, rfl⟩
    | ok p => exact absurd (parseArgs_ok args p h).1 hnd
  · intro e he
    exact (parseArgs_error args e he).2
  · intro p hp
    obtain ⟨hnd, hfilter, hargs, -⟩ := parseArgs_ok args p hp
    refine ⟨hfilter, ?_, ?_, hargs⟩
    · rw [hfilter]; simp [GoMap.len]
    · rw [hfilter]; simpa [GoMap.keys, Function.comp_def] using hnd

/-- Witness for C10: `a=b c= d~e x y=z` parses to three filter entries and
two column names; `a=b a~c x` is a duplicate. -/
theorem parse_fatal_iff_duplicate_witness :
    parseArgs ["a=b", "a~c", "x"] = .error (.duplicateTag "a") ∧
    ¬ ((leadingTerms ["a=b", "a~c", "x"]).map termKey).Nodup ∧
    parseArgs ["a=b", "c=", "d~e", "x", "y=z"] =
      .ok ⟨[("a", "b"), ("c", ""), ("d", "e")], [("c", true), ("d", true)], ["x", "y=z"]⟩ ∧
    GoMap.len ([("a", "b"), ("c", ""), ("d", "e")] : GoMap String) =
      (leadingTerms ["a=b", "c=", "d~e", "x", "y=z"]).length :=
  ⟨rfl, (parse_fatal_iff_duplicate ["a=b", "a~c", "x"]).1.1 ⟨_, rfl⟩, rfl,
    ((parse_fatal_iff_duplicate ["a=b", "c=", "d~e", "x", "y=z"]).2.2
      ⟨[("a", "b"), ("c", ""), ("d", "e")], [("c", true), ("d", true)], ["x", "y=z"]⟩ rfl).2.1⟩

/-! ## The reported counts -/

/-- C14: the producer of `Select` (and of `Summary`) reports a total that is
one less than the number of records it pulled. On an input of one record
that is emitted, `n` is 1 and `recno` is 1, but the log line prints
`recno-1`, so the report reads "read 1 of 0 records": the emitted count
exceeds the reported total. On the empty input the reported total is -1. -/
theorem reported_total_off_by_one :
    (Select "" [] [] ["value"] [⟨some "cpu", [], [some ("value", "1")]⟩]).sent = [["1"]] ∧
    (Select "" [] [] ["value"] [⟨some "cpu", [], [some ("value", "1")]⟩]).recno = 1 ∧
    reportedCounts (Select "" [] [] ["value"] [⟨some "cpu", [], [some ("value", "1")]⟩])
      = (1, 0) ∧
    reportedCounts (Summary "" [] [] [⟨some "cpu", [], [some ("value", "1")]⟩]) = (1, 0) ∧
    reportedCounts (Select "" [] [] ["value"] []) = (0, -1) := by
  decide

/-! ## The end-to-end example -/

/-- C15: on the records `cpu,host=a,region=us value=1`,
`cpu,host=b,region=eu value=2` and `mem,host=a value=9`, with the filter
`region=us` and the columns `host`, `value`, `Select` sends exactly the row
`["a", "1"]`, with and without the restriction `-m cpu`. With the restriction
a record of measurement `mem` is dropped whatever its tags and fields are;
without it the `mem` record fills both columns but has no `region` tag, its
`sat` stays 0 and it is dropped. -/
theorem end_to_end_example :
    (Select "" [("region", "us")] [] ["host", "value"] [recCpuA, recCpuB, recMemA]).sent
      = [["a", "1"]] ∧
    (Select "cpu" [("region", "us")] [] ["host", "value"] [recCpuA, recCpuB, recMemA]).sent
      = [["a", "1"]] ∧
    (∀ tags fields : List Event,
      selectRecord (fromOf "cpu") [("region", "us")] [] ["host", "value"]
        ⟨some "mem", tags, fields⟩ = none) ∧
    "region" ∉ streamKeys recMemA.tags ∧
    (selectPasses [("region", "us")] [] ["host", "value"] recMemA).sat = 0 ∧
    (selectPasses [("region", "us")] [] ["host", "value"] recMemA).flds = 2 ∧
    selectRecord (fromOf "") [("region", "us")] [] ["host", "value"] recMemA = none := by
  refine ⟨by decide, by decide, ?_, by decide, by decide, by decide, by decide⟩
  intro tags fields
  have h : fromOf "cpu" = some "cpu" := by decide
  have h2 : otherMeasurement (some "cpu") "mem" = true := by decide
  simp [selectRecord, h, h2]

/-! ## Repeated tag keys -/

/-- C19: there are a filter with two keys and a record whose tag stream
repeats a key such that `sat` reaches `len(tags)` and both `Select` and
`Summary` accept the record, although a configured filter key is absent from
the record's tags: the filter `a=1 b=2` and the tags `a=1`, `a=1`. -/
theorem repeated_tag_key_accepted :
    ∃ (tags : GoMap String) (pfixes : GoMap Bool) (r : Record),
      2 ≤ tags.len ∧ tags.keys.Nodup ∧ ¬ (streamKeys r.tags).Nodup ∧
      (∃ k, k ∈ tags.keys ∧ k ∉ streamKeys r.tags) ∧
      (selectPasses tags pfixes ["value"] r).sat = tags.len ∧
      (summaryTagPass tags pfixes "cpu" r).sat = tags.len ∧
      (selectRecord none tags pfixes ["value"] r).isSome = true ∧
      (summaryRecord none tags pfixes r).isSome = true := by
  refine ⟨[("a", "1"), ("b", "2")], [], recRepeatedTag, by decide, by decide, by decide,
    ⟨"b", by decide, by decide⟩, by decide, by decide, by decide, by decide⟩

/-! ## Skip and limit, for a positive limit -/

theorem projLoop_spec (rows : List (List String)) (st : Proj)
    (h1 : 1 ≤ st.fLim) (h2 : st.fLim < uintSize) :
    (projLoop st rows).1.written = st.written ++ (rows.drop st.fSkip).take st.fLim ∧
    (projLoop st rows).1.N = st.N + ((rows.drop st.fSkip).take st.fLim).length ∧
    (projLoop st rows).2 = rows.drop (st.fSkip + st.fLim) := by
  induction rows generalizing st with
  | nil => simp [projLoop]
  | cons v rest ih =>
    by_cases hs : st.fSkip > 0
    · obtain ⟨s, hs'⟩ : ∃ s, st.fSkip = s + 1 := ⟨st.fSkip - 1, by omega⟩
      have := ih { st with fSkip := st.fSkip - 1 } h1 h2
      simp only [projLoop, hs, if_true]
      simp only [hs', Nat.add_sub_cancel, List.drop_succ_cons] at this ⊢
      have e : s + 1 + st.fLim = (s + st.fLim) + 1 := by omega
      rw [e, List.drop_succ_cons]
      exact this
    · have hs0 : st.fSkip = 0 := by omega
      have hlim : (st.fLim + uintSize - 1) % uintSize = st.fLim - 1 := by
        have : st.fLim + uintSize - 1 = (st.fLim - 1) + uintSize := by omega
        rw [this, Nat.add_mod_right, Nat.mod_eq_of_lt (by omega)]
      obtain ⟨l, hl⟩ : ∃ l, st.fLim = l + 1 := ⟨st.fLim - 1, by omega⟩
      simp only [projLoop, hs, if_false, hlim]
      by_cases hz : st.fLim - 1 = 0
      · have hl0 : l = 0 := by omega
        simp only [hz, if_true]
        simp [hs0, hl, hl0]
      · simp only [hz, if_false]
        have := ih (⟨st.written ++ [v], st.N + 1, st.fSkip, st.fLim - 1⟩ : Proj)
          (by simp; omega) (by simp; omega)
        simp only [hs0, hl, Nat.add_sub_cancel, List.drop_zero, List.take_succ_cons,
          List.length_cons, Nat.zero_add, List.drop_succ_cons] at this ⊢
        obtain ⟨t1, t2, t3⟩ := this
        refine ⟨by rw [t1]; simp, by rw [t2]; omega, t3⟩

/-- C18: for a skip count `S` and a limit `L` with `1 ≤ L` (both values of a
`uint` flag) and any sequence of matching rows, the projection loop of
`main` writes exactly the rows numbered `S+1, S+2, ...` in order, up to `L`
of them, that is `min(L, max(M - S, 0))` rows of the `M` matching rows; it
counts them in `N`, and the rows after the first `S + L` are never
received. -/
theorem project_skip_limit (S L : Nat) (rows : List (List String))
    (hS : S < uintSize) (hL1 : 1 ≤ L) (hL : L < uintSize) :
    (project S L rows).1.written = (rows.drop S).take L ∧
    (project S L rows).1.written.length = min L (rows.length - S) ∧
    (project S L rows).1.N = min L (rows.length - S) ∧
    (project S L rows).2 = rows.drop (S + L) := by
  unfold project
  rw [Nat.mod_eq_of_lt hS, Nat.mod_eq_of_lt hL]
  obtain ⟨t1, t2, t3⟩ := projLoop_spec rows ⟨[], 0, S, L⟩ hL1 hL
  simp only [List.nil_append, Nat.zero_add] at t1 t2 t3
  refine ⟨t1, ?_, ?_, t3⟩
  · rw [t1]; simp [List.length_take, List.length_drop]
  · rw [t2]; simp [List.length_take, List.length_drop]

/-- Witness for C18: `-skip 1 -lim 2` on four rows writes the second and the
third and leaves the fourth unread. -/
theorem project_skip_limit_witness :
    (1 < uintSize ∧ 1 ≤ 2 ∧ 2 < uintSize) ∧
    (project 1 2 [["a"], ["b"], ["c"], ["d"]]).1.written = [["b"], ["c"]] ∧
    (project 1 2 [["a"], ["b"], ["c"], ["d"]]).2 = [["d"]] :=
  ⟨by decide,
    (project_skip_limit 1 2 [["a"], ["b"], ["c"], ["d"]] (by decide) (by decide)
      (by decide)).1,
    (project_skip_limit 1 2 [["a"], ["b"], ["c"], ["d"]] (by decide) (by decide)
      (by decide)).2.2.2⟩

/-! ## Sorting -/

theorem strLess_irrefl (a : List Char) : strLess a a = false := by
  induction a with
  | nil => rfl
  | cons x xs ih => simp [strLess, ih]

theorem strLess_asymm (a b : List Char) (h : strLess a b = true) : strLess b a = false := by
  induction a generalizing b with
  | nil => cases b <;> simp_all [strLess]
  | cons x xs ih =>
    cases b with
    | nil => simp [strLess] at h
    | cons y ys =>
      simp only [strLess] at h ⊢
      split_ifs at h ⊢ <;> first | omega | rfl | exact ih ys h

theorem strLess_le_trans (a b c : List Char) (h1 : strLess b a = false)
    (h2 : strLess c b = false) : strLess c a = false := by
  induction a generalizing b c with
  | nil => cases c <;> simp [strLess]
  | cons x xs ih =>
    cases b with
    | nil => simp [strLess] at h1
    | cons y ys =>
      cases c with
      | nil => simp [strLess] at h2
      | cons z zs =>
        simp only [strLess] at h1 h2 ⊢
        split_ifs at h1 h2 ⊢ <;> first | omega | rfl | exact ih ys zs h1 h2

theorem strLess_antisymm (a b : List Char) (h1 : strLess a b = false)
    (h2 : strLess b a = false) : a = b := by
  induction a generalizing b with
  | nil => cases b <;> simp_all [strLess]
  | cons x xs ih =>
    cases b with
    | nil => simp [strLess] at h2
    | cons y ys =>
      simp only [strLess] at h1 h2
      split_ifs at h1 h2 with p q
      have hxy : x = y := by
        apply Char.ext
        apply UInt32.ext
        have : x.toNat = y.toNat := by omega
        exact this
      rw [hxy, ih ys h1 h2]

theorem strLe_refl (a : String) : strLe a a := strLess_irrefl a.data

theorem strLe_trans (a b c : String) (h1 : strLe a b) (h2 : strLe b c) : strLe a c :=
  strLess_le_trans a.data b.data c.data h1 h2

theorem strLe_antisymm (a b : String) (h1 : strLe a b) (h2 : strLe b a) : a = b :=
  String.ext (strLess_antisymm a.data b.data h2 h1)

theorem insertSorted_perm (s : String) (l : List String) : (insertSorted s l).Perm (s :: l) := by
  induction l with
  | nil => simp [insertSorted]
  | cons t ts ih =>
    simp only [insertSorted]
    split
    · exact (List.Perm.cons t ih).trans (List.Perm.swap s t ts)
    · exact List.Perm.refl _

theorem sortStrings_perm (l : List String) : (sortStrings l).Perm l := by
  induction l with
  | nil => exact List.Perm.refl _
  | cons s ss ih =>
    simp only [sortStrings]
    exact (insertSorted_perm s _).trans (List.Perm.cons s ih)

theorem insertSorted_sorted (s : String) (l : List String) (h : l.Pairwise strLe) :
    (insertSorted s l).Pairwise strLe := by
  induction l with
  | nil => simp [insertSorted]
  | cons t ts ih =>
    obtain ⟨ht, hts⟩ := List.pairwise_cons.1 h
    simp only [insertSorted]
    split
    · rename_i hlt
      refine List.pairwise_cons.2 ⟨?_, ih hts⟩
      intro x hx
      rcases List.mem_cons.1 ((insertSorted_perm s ts).subset hx) with rfl | hx'
      · exact strLess_asymm _ _ hlt
      · exact ht x hx'
    · rename_i hlt
      have hst : strLe s t := by simpa [strLe] using hlt
      refine List.pairwise_cons.2 ⟨?_, h⟩
      intro x hx
      rcases List.mem_cons.1 hx with rfl | hx'
      · exact hst
      · exact strLe_trans s t x hst (ht x hx')

theorem sortStrings_sorted (l : List String) : (sortStrings l).Pairwise strLe := by
  induction l with
  | nil => simp [sortStrings]
  | cons s ss ih => exact insertSorted_sorted s _ ih

theorem sortStrings_eq_of_perm (l₁ l₂ : List String) (h : l₁.Perm l₂) :
    sortStrings l₁ = sortStrings l₂ := by
  haveI : IsAntisymm String strLe := ⟨strLe_antisymm⟩
  exact List.eq_of_perm_of_sorted
    (((sortStrings_perm l₁).trans h).trans (sortStrings_perm l₂).symm)
    (sortStrings_sorted l₁) (sortStrings_sorted l₂)

theorem sortStrings_length (l : List String) : (sortStrings l).length = l.length :=
  (sortStrings_perm l).length_eq

theorem sortStrings_head_empty (l : List String) (h : "" ∈ l) :
    (sortStrings l).head? = some "" := by
  have hmem : "" ∈ sortStrings l := (sortStrings_perm l).symm.subset h
  have hs := sortStrings_sorted l
  cases hl : sortStrings l with
  | nil => rw [hl] at hmem; simp at hmem
  | cons x xs =>
    rw [hl] at hmem hs
    have hx : strLe x "" := by
      rcases List.mem_cons.1 hmem with h1 | h1
      · rw [← h1]; exact strLe_refl _
      · exact (List.pairwise_cons.1 hs).1 "" h1
    have : x = "" := by
      apply String.ext
      unfold strLe at hx
      cases hd : x.data with
      | nil => rfl
      | cons c cs => rw [hd] at hx; simp [strLess] at hx
    simp [this]

theorem sorted_sublist_pair (l : List String) (hs : l.Pairwise strLe) (a b : String)
    (ha : a ∈ l) (hb : b ∈ l) (hlt : strLess a.data b.data = true) : [a, b].Sublist l := by
  induction l with
  | nil => simp at ha
  | cons x xs ih =>
    obtain ⟨hx, hxs⟩ := List.pairwise_cons.1 hs
    have hne : a ≠ b := by
      rintro rfl
      rw [strLess_irrefl] at hlt
      cases hlt
    by_cases hxa : x = a
    · subst hxa
      rcases List.mem_cons.1 hb with h1 | h1
      · exact absurd h1.symm hne
      · exact List.Sublist.cons₂ x (List.singleton_sublist.2 h1)
    · have ha' : a ∈ xs := by
        rcases List.mem_cons.1 ha with h1 | h1
        · exact absurd h1.symm hxa
        · exact h1
      have hb' : b ∈ xs := by
        rcases List.mem_cons.1 hb with h1 | h1
        · subst h1
          have := hx a ha'
          unfold strLe at this
          rw [hlt] at this
          cases this
        · exact h1
      exact List.Sublist.cons x (ih hxs ha' hb')

/-! ## The summary report -/

theorem summaryLoop_tracked (tvss : List (List (String × String))) (f : String) :
    tracked (summaryLoop tvss).tagvals f =
      (firstDistinct (observed f (visited tvss))).take 20 := by
  rw [summaryLoop_tagvals]
  have := tally_fold_tracked (visited tvss) [] []
    (by intro g; simp [tracked, GoMap.getD, GoMap.get?, GoMap.keys, observed, firstDistinct])
    (by intro g _; simp [observed]) f
  simpa using this

theorem entryCount_reportFacet (T : GoMap (GoMap Nat)) (f : String) :
    entryCount (reportFacet T f) = (listedValues T f).length := by
  have h1 : ∀ l : List String,
      ((l.map (fun k => Line.entry ((T.getD f []).getD k 0) k)).filter Line.isEntry).length
        = l.length := by
    intro l
    induction l with
    | nil => rfl
    | cons k ks ih => simpa [List.filter_cons, Line.isEntry] using ih
  unfold entryCount reportFacet
  rw [List.filter_cons]
  simp only [Line.isEntry, Bool.false_eq_true, if_false, List.filter_append, List.length_append,
    h1]
  split <;> simp [List.filter_cons, Line.isEntry]

theorem more_mem_reportFacet (T : GoMap (GoMap Nat)) (f : String) :
    Line.more ∈ reportFacet T f ↔ isLong T f = true := by
  unfold reportFacet
  cases isLong T f <;> simp

/-- C11 (counterexample): the facet `h` took exactly 20 distinct values, yet
the report lists 19 of them and prints the truncation marker. -/
theorem report_twenty_values_truncated :
    distinctCount "h" twentyHosts = 20 ∧
    entryCount (reportFacet (summaryLoop twentyHosts).tagvals "h") = 19 ∧
    Line.more ∈ reportFacet (summaryLoop twentyHosts).tagvals "h" ∧
    ¬ (entryCount (reportFacet (summaryLoop twentyHosts).tagvals "h") =
        min (distinctCount "h" twentyHosts) 20 ∧
      (Line.more ∈ reportFacet (summaryLoop twentyHosts).tagvals "h" ↔
        20 < distinctCount "h" twentyHosts)) := by
  decide

/-- C11 (amended): for every sequence of facet maps and every facet, the
summary report of `main` lists `min(d, 19)` values, where `d` is the number
of distinct values observed for the facet, and prints the truncation marker
`...` if and only if at least 20 distinct values existed; every listed value
is a tracked value shown with its count from the table. -/
theorem report_lists_at_most_nineteen (tvss : List (List (String × String))) (f : String) :
    entryCount (reportFacet (summaryLoop tvss).tagvals f) = min (distinctCount f tvss) 19 ∧
    (Line.more ∈ reportFacet (summaryLoop tvss).tagvals f ↔ 20 ≤ distinctCount f tvss) ∧
    (∀ c v, Line.entry c v ∈ reportFacet (summaryLoop tvss).tagvals f →
      v ∈ tracked (summaryLoop tvss).tagvals f ∧
      c = ((summaryLoop tvss).tagvals.getD f []).getD v 0) := by
  have hlen : (sortStrings ((summaryLoop tvss).tagvals.getD f []).keys).length =
      min 20 (distinctCount f tvss) := by
    rw [sortStrings_length]
    have := summaryLoop_tracked tvss f
    unfold tracked at this
    rw [this, List.length_take]
    rfl
  refine ⟨?_, ?_, ?_⟩
  · rw [entryCount_reportFacet]
    unfold listedValues
    simp only
    split
    · rw [List.length_take]; omega
    · omega
  · rw [more_mem_reportFacet]
    unfold isLong
    rw [hlen]
    simp only [decide_eq_true_eq]
    omega
  · intro c v hmem
    unfold reportFacet at hmem
    simp only [List.mem_cons, List.mem_append, List.mem_map, false_or, reduceCtorEq] at hmem
    rcases hmem with ⟨k, hk, hkv⟩ | hmem
    · injection hkv with h1 h2
      subst h2
      refine ⟨?_, h1.symm⟩
      unfold tracked
      have hk' : k ∈ sortStrings ((summaryLoop tvss).tagvals.getD f []).keys := by
        unfold listedValues at hk
        simp only at hk
        split at hk
        · exact List.mem_of_mem_take hk
        · exact hk
      exact (sortStrings_perm _).subset hk'
    · split at hmem <;> simp at hmem

/-- C12 (counterexample): for the one record `cpu,host=a,region=us value=1`
the report prints the facets in the order measurement, field shape, `host`,
`region`: the field-shape facet comes second, before the tag-key facets. -/
theorem report_fields_facet_not_last :
    (Summary "" [] [] [recCpuA]).sent =
      [[("", "cpu"), ("host", "a"), ("region", "us"), (" _fields", "value")]] ∧
    reportOrder (summaryLoop (Summary "" [] [] [recCpuA]).sent).tagvals =
      ["", " _fields", "host", "region"] ∧
    summaryReport (Summary "" [] [] [recCpuA]).sent =
      [Line.header "MEASUREMENTS:", Line.entry 1 "cpu",
       Line.header "RECORD TYPES:", Line.entry 1 "value",
       Line.header "host:", Line.entry 1 "a",
       Line.header "region:", Line.entry 1 "us"] := by
  decide

/-- C12 (amended): the report of `main` prints the facets of the aggregation
table in ascending byte order of their keys, each facet once; the
measurement-name facet (key "") comes first, and the field-shape facet (key
" _fields") comes before every tag-key facet whose key sorts after
" _fields", in particular before every key that starts with a character
above the space. -/
theorem report_order_sorted (tvss : List (List (String × String))) :
    summaryReport tvss = (reportOrder (summaryLoop tvss).tagvals).flatMap
      (reportFacet (summaryLoop tvss).tagvals) ∧
    (reportOrder (summaryLoop tvss).tagvals).Perm (summaryLoop tvss).tagvals.keys ∧
    (reportOrder (summaryLoop tvss).tagvals).Pairwise strLe ∧
    ("" ∈ (summaryLoop tvss).tagvals.keys →
      (reportOrder (summaryLoop tvss).tagvals).head? = some "") ∧
    (∀ k, " _fields" ∈ (summaryLoop tvss).tagvals.keys → k ∈ (summaryLoop tvss).tagvals.keys →
      strLess " _fields".data k.data = true →
      [" _fields", k].Sublist (reportOrder (summaryLoop tvss).tagvals)) ∧
    (∀ (k : String) (c : Char) (rest : List Char), k.data = c :: rest → 32 < c.toNat →
      strLess " _fields".data k.data = true) := by
  refine ⟨rfl, sortStrings_perm _, sortStrings_sorted _, sortStrings_head_empty _, ?_, ?_⟩
  · intro k h1 h2 h3
    exact sorted_sublist_pair _ (sortStrings_sorted _) " _fields" k
      ((sortStrings_perm _).symm.subset h1) ((sortStrings_perm _).symm.subset h2) h3
  · intro k c rest hk hc
    rw [hk]
    have : " _fields".data = ' ' :: "_fields".data := rfl
    rw [this]
    simp only [strLess]
    have h32 : (' ' : Char).toNat = 32 := rfl
    rw [h32, if_pos hc]

/-- Witness for C12 (amended): in the report for the record
`cpu,host=a,region=us value=1` the field-shape facet precedes `host`. -/
theorem report_order_sorted_witness :
    [" _fields", "host"].Sublist
      (reportOrder (summaryLoop (Summary "" [] [] [recCpuA]).sent).tagvals) :=
  (report_order_sorted (Summary "" [] [] [recCpuA]).sent).2.2.2.2.1 "host"
    (by decide) (by decide) (by decide)

/-! ## The facet map of a record -/

theorem summaryFieldLoop_eq (evs : List Event) (fs : List String) :
    summaryFieldLoop fs evs = fs ++ streamKeys evs := by
  induction evs generalizing fs with
  | nil => simp [summaryFieldLoop, streamKeys, decoded]
  | cons e evs ih =>
    cases e with
    | none => simpa [summaryFieldLoop, streamKeys, decoded] using ih fs
    | some p =>
      obtain ⟨k, val⟩ := p
      simp only [summaryFieldLoop]
      rw [ih]
      simp [streamKeys, decoded]

theorem summaryTagLoop_values (tags : GoMap String) (pfixes : GoMap Bool)
    (evs : List Event) (acc : SumAcc) :
    (summaryTagLoop tags pfixes acc evs).values =
      ((decoded evs).filter (unblocked tags pfixes)).foldl (fun m p => GoMap.set m p.1 p.2)
        acc.values := by
  induction evs generalizing acc with
  | nil => simp [summaryTagLoop, decoded]
  | cons e evs ih =>
    cases e with
    | none => simpa [summaryTagLoop, decoded] using ih acc
    | some p =>
      obtain ⟨k, val⟩ := p
      simp only [summaryTagLoop, decoded, List.reduceOption_cons_of_some] at ih ⊢
      rw [ih]
      unfold summaryTag
      cases hg : tags.get? k with
      | none => simp [List.filter_cons, unblocked, hg]
      | some v =>
        cases hp : pfixes.getD k false
        · by_cases hv : val = v <;> simp [hv, List.filter_cons, unblocked, hg, matchRule, hp]
        · cases hh : hasPrefix val v <;>
            simp [hh, List.filter_cons, unblocked, hg, matchRule, hp]

/-- In an accepted record with distinct tag keys no tag is skipped by the
tag loop. -/
theorem all_unblocked (tags : GoMap String) (pfixes : GoMap Bool)
    (pairs : List (String × String)) (htags : tags.keys.Nodup)
    (hpairs : (pairs.map Prod.fst).Nodup)
    (hsat : (pairs.filter (satisfied tags pfixes)).length = tags.len) :
    pairs.filter (unblocked tags pfixes) = pairs := by
  rw [List.filter_eq_self]
  intro p hp
  unfold unblocked
  cases hg : tags.get? p.1 with
  | none => rfl
  | some v =>
    obtain ⟨val, hval, hrule⟩ :=
      (satisfied_count_eq_iff tags pfixes pairs htags hpairs).1 hsat p.1 v
        (GoMap.mem_of_get? tags p.1 v hg)
    have e1 := GoMap.get?_of_mem pairs hpairs p.1 val hval
    have e2 := GoMap.get?_of_mem pairs hpairs p.1 p.2 hp
    rw [e1] at e2
    rw [← Option.some.inj e2]
    exact hrule

theorem foldl_set_append (pairs : List (String × String)) (init : GoMap String)
    (hnew : ∀ p ∈ pairs, p.1 ∉ init.keys) (hnodup : (pairs.map Prod.fst).Nodup) :
    pairs.foldl (fun m p => GoMap.set m p.1 p.2) init = init ++ pairs := by
  induction pairs generalizing init with
  | nil => simp
  | cons p pairs ih =>
    rw [List.map_cons, List.nodup_cons] at hnodup
    simp only [List.foldl_cons]
    rw [GoMap.set_of_not_mem init p.1 p.2 (hnew p (List.mem_cons_self _ _))]
    rw [ih _ ?_ hnodup.2]
    · simp
    · intro q hq
      simp only [GoMap.keys, List.map_append, List.map_cons, List.map_nil, List.mem_append,
        List.mem_singleton, not_or]
      refine ⟨hnew q (List.mem_cons_of_mem _ hq), ?_⟩
      intro h
      exact hnodup.1 (h ▸ List.mem_map_of_mem Prod.fst hq)

theorem intercalate_go (sep : String) (ts : List String) (acc t : String) :
    String.intercalate.go acc sep (t :: ts) =
      acc ++ sep ++ String.intercalate.go t sep ts := by
  induction ts generalizing acc t with
  | nil => simp [String.intercalate.go]
  | cons u us ih =>
    rw [String.intercalate.go, ih, ih t u]
    simp [String.intercalate.go, String.append_assoc]

/-- The model of `strings.Join` is the library's `String.intercalate`: the
strings in order with the separator between neighbours. -/
theorem joinStrings_eq_intercalate (sep : String) (l : List String) :
    joinStrings sep l = String.intercalate sep l := by
  induction l with
  | nil => rfl
  | cons s l ih =>
    cases l with
    | nil => rfl
    | cons t ts =>
      simp only [joinStrings, String.intercalate] at ih ⊢
      rw [intercalate_go, ih]

/-- C16: for a record with measurement `m` that passes the measurement test
and the filter of `Summary`, with pairwise distinct tag keys none of which
is "" or " _fields", the facet map that `Summary` sends has exactly the
entries "" -> `m`, each tag key -> its value (filter keys or not), and
" _fields" -> the record's field keys sorted in ascending byte order and
joined with commas (the sorted keys in order with one comma between
neighbours); the sorted keys are a sorted rearrangement of the field
keys, so the " _fields" entry is the same for any record whose field keys
are a permutation of this record's. -/
theorem summary_facet_map (frm : Option String) (tags : GoMap String) (pfixes : GoMap Bool)
    (r : Record) (m : String)
    (hm : r.measurement = some m) (hfrom : otherMeasurement frm m = false)
    (htags : tags.keys.Nodup) (hr : (streamKeys r.tags).Nodup)
    (h1 : "" ∉ streamKeys r.tags) (h2 : " _fields" ∉ streamKeys r.tags)
    (hpass : (summaryTagPass tags pfixes m r).sat = tags.len) :
    summaryRecord frm tags pfixes r =
      some (("", m) :: decoded r.tags ++
        [(" _fields", joinStrings "," (sortStrings (streamKeys r.fields)))]) ∧
    summaryRecord frm tags pfixes r =
      some (("", m) :: decoded r.tags ++
        [(" _fields", String.intercalate "," (sortStrings (streamKeys r.fields)))]) ∧
    (sortStrings (streamKeys r.fields)).Perm (streamKeys r.fields) ∧
    (sortStrings (streamKeys r.fields)).Pairwise strLe ∧
    (∀ r' : Record, (streamKeys r'.fields).Perm (streamKeys r.fields) →
      joinStrings "," (sortStrings (streamKeys r'.fields)) =
        joinStrings "," (sortStrings (streamKeys r.fields))) := by
  have hmain : summaryRecord frm tags pfixes r =
      some (("", m) :: decoded r.tags ++
        [(" _fields", joinStrings "," (sortStrings (streamKeys r.fields)))]) := by
    have hsat : ((decoded r.tags).filter (satisfied tags pfixes)).length = tags.len := by
      rw [← summaryTagPass_sat tags pfixes m r]; exact hpass
    have hvals : (summaryTagPass tags pfixes m r).values = ("", m) :: decoded r.tags := by
      unfold summaryTagPass
      rw [summaryTagLoop_values, all_unblocked tags pfixes _ htags hr hsat]
      rw [foldl_set_append _ _ ?_ hr]
      · rfl
      · intro p hp
        simp only [GoMap.keys, List.map_cons, List.map_nil, List.mem_singleton]
        intro h
        exact h1 (h ▸ List.mem_map_of_mem Prod.fst hp)
    unfold summaryRecord
    simp only [hm, hfrom, Bool.false_eq_true, if_false, hpass, ne_eq, not_true_eq_false,
      hvals, summaryFieldLoop_eq, List.nil_append]
    have hnot : " _fields" ∉ GoMap.keys (("", m) :: decoded r.tags) := by
      simp only [GoMap.keys, List.map_cons, List.mem_cons, not_or]
      exact ⟨by decide, h2⟩
    rw [GoMap.set_of_not_mem _ _ _ hnot]
  refine ⟨hmain, ?_, sortStrings_perm _, sortStrings_sorted _, ?_⟩
  · rw [hmain, joinStrings_eq_intercalate]
  · intro r' hperm
    rw [sortStrings_eq_of_perm _ _ hperm]

/-- Witness for C16: under the filter `region=us` the record
`cpu,host=a,region=us value=1,load=2,cpu=3` gives the facet map with the
measurement, both tags and the field shape `cpu,load,value`, and the record
with the same fields in another order has the same field shape. -/
theorem summary_facet_map_witness :
    summaryRecord none [("region", "us")] [] recThreeFields =
      some [("", "cpu"), ("host", "a"), ("region", "us"), (" _fields", "cpu,load,value")] ∧
    joinStrings "," (sortStrings (streamKeys recThreeFieldsPermuted.fields)) =
      "cpu,load,value" :=
  ⟨(summary_facet_map none [("region", "us")] [] recThreeFields "cpu" rfl rfl (by decide)
      (by decide) (by decide) (by decide) (by decide)).1,
    (summary_facet_map none [("region", "us")] [] recThreeFields "cpu" rfl rfl (by decide)
      (by decide) (by decide) (by decide) (by decide)).2.2.2.2 recThreeFieldsPermuted
      (by decide)⟩

/-- Witness for C11 (amended): twenty distinct values of the facet `h` give
the truncation marker. -/
theorem report_lists_at_most_nineteen_witness :
    20 ≤ distinctCount "h" twentyHosts ∧
    Line.more ∈ reportFacet (summaryLoop twentyHosts).tagvals "h" :=
  ⟨by decide, (report_lists_at_most_nineteen twentyHosts "h").2.1.2 (by decide)⟩

/-! ## The aggregation table, facet by facet -/

theorem tally_get? (T : GoMap (GoMap Nat)) (tag value f : String) :
    (tally T tag value).get? f =
      if tag = f then facetStep (T.get? f) value else T.get? f := by
  unfold tally
  by_cases hf : tag = f
  · subst hf
    simp only [if_true]
    cases hg : T.get? tag with
    | none => simp [facetStep, GoMap.get?_set]
    | some m =>
      simp only [facetStep]
      split
      · simp [GoMap.get?_set]
      · exact hg
  · simp only [hf, if_false]
    cases hg : T.get? tag with
    | none => simp [GoMap.get?_set, hf]
    | some m =>
      simp only
      split
      · simp [GoMap.get?_set, hf]
      · rfl

theorem tally_fold_get? (es : List (String × String)) (T : GoMap (GoMap Nat)) (f : String) :
    (es.foldl (fun T e => tally T e.1 e.2) T).get? f =
      (observed f es).foldl facetStep (T.get? f) := by
  induction es generalizing T with
  | nil => rfl
  | cons e es ih =>
    simp only [List.foldl_cons]
    rw [ih, tally_get?]
    by_cases he : e.1 = f
    · simp [observed, he]
    · simp [observed, he]

theorem summaryLoop_get? (tvss : List (List (String × String))) (f : String) :
    (summaryLoop tvss).tagvals.get? f = (observed f (visited tvss)).foldl facetStep none := by
  rw [summaryLoop_tagvals, tally_fold_get?]
  rfl

theorem observed_map_self (f : String) (vals : List String) :
    observed f (vals.map (fun v => (f, v))) = vals := by
  induction vals with
  | nil => rfl
  | cons v vs ih =>
    simp only [observed, List.map_cons, List.filterMap_cons, if_true] at ih ⊢
    rw [ih]

theorem facet_keys (vals : List String) :
    GoMap.keys ((vals.foldl facetStep none).getD []) = (firstDistinct vals).take 20 := by
  have h := tally_fold_tracked (vals.map (fun v => ("", v))) [] []
    (by intro g; simp [tracked, GoMap.getD, GoMap.get?, GoMap.keys, observed, firstDistinct])
    (by intro g _; simp [observed]) ""
  rw [List.nil_append, observed_map_self] at h
  rw [← h]
  unfold tracked GoMap.getD
  rw [tally_fold_get?, observed_map_self]
  rfl

/-- Every value that the map of a facet tracks is counted once per
occurrence. -/
theorem facet_counts (vals : List String) (v : String)
    (hv : v ∈ GoMap.keys ((vals.foldl facetStep none).getD [])) :
    GoMap.get? ((vals.foldl facetStep none).getD []) v = some (vals.count v) := by
  induction vals using List.reverseRecOn generalizing v with
  | nil => simp [GoMap.keys] at hv
  | append_singleton vals w ih =>
    have hkeys := facet_keys vals
    rw [List.foldl_append] at hv ⊢
    simp only [List.foldl_cons, List.foldl_nil] at hv ⊢
    cases ho : vals.foldl facetStep none with
    | none =>
      rw [ho] at hkeys
      have hnil : vals = [] := by
        have h0 : firstDistinct vals = [] := by
          have : ((firstDistinct vals).take 20).length = 0 := by
            rw [← hkeys]; rfl
          rw [List.length_take] at this
          have h1 : (firstDistinct vals).length = 0 := by omega
          exact List.length_eq_zero.1 h1
        cases vals with
        | nil => rfl
        | cons x xs =>
          have : x ∈ firstDistinct (x :: xs) := (mem_firstDistinct _ x).2 (by simp)
          rw [h0] at this
          simp at this
      subst hnil
      rw [ho] at hv
      simp only [facetStep, Option.getD_some, GoMap.keys, List.map_cons, List.map_nil,
        List.mem_singleton] at hv
      subst hv
      simp [facetStep, GoMap.get?]
    | some m =>
      rw [ho] at hkeys ih hv
      simp only [Option.getD_some] at hkeys ih hv
      simp only [facetStep] at hv ⊢
      by_cases hw : w ∈ GoMap.keys m
      · have hsome : (m.get? w).isSome = true := (GoMap.get?_isSome_iff m w).2 hw
        simp only [hsome, Bool.true_or, if_true, Option.getD_some] at hv ⊢
        rw [GoMap.keys_set_of_mem m w _ hw] at hv
        rw [GoMap.get?_set]
        by_cases hwv : w = v
        · subst hwv
          simp [GoMap.getD, ih w hw]
        · simp [hwv, ih v hv, List.count_append, List.count_singleton, Ne.symm hwv]
      · have hnone : m.get? w = none := (GoMap.get?_eq_none_iff m w).2 hw
        by_cases hlt : m.len < 20
        · simp only [hnone, Option.isSome_none, Bool.false_or, hlt, decide_True, if_true,
            Option.getD_some] at hv ⊢
          rw [GoMap.keys_set_of_not_mem m w _ hw] at hv
          rw [GoMap.get?_set]
          by_cases hwv : w = v
          · subst hwv
            have hshort : (firstDistinct vals).length < 20 := by
              by_contra hge
              have : (GoMap.keys m).length = 20 := by
                rw [hkeys, List.length_take]; omega
              simp [GoMap.len, GoMap.keys] at hlt this
              omega
            have hall : GoMap.keys m = firstDistinct vals := by
              rw [hkeys, List.take_of_length_le (by omega)]
            have hnin : w ∉ vals := by
              rw [← mem_firstDistinct, ← hall]; exact hw
            simp [GoMap.getD, hnone, List.count_eq_zero_of_not_mem hnin]
          · have hv' : v ∈ GoMap.keys m := by
              rcases List.mem_append.1 hv with h | h
              · exact h
              · simp at h; exact absurd h.symm hwv
            simp [hwv, ih v hv', List.count_append, List.count_singleton, Ne.symm hwv]
        · simp only [hnone, Option.isSome_none, Bool.false_or, hlt, decide_False,
            Bool.false_eq_true, if_false, Option.getD_some] at hv ⊢
          have hwv : w ≠ v := by
            rintro rfl
            exact hw hv
          simp [ih v hv, List.count_append, List.count_singleton, Ne.symm hwv]

theorem observed_eq_nil (f : String) (tvs : List (String × String))
    (h : f ∉ tvs.map Prod.fst) : observed f tvs = [] := by
  induction tvs with
  | nil => rfl
  | cons e tvs ih =>
    simp only [List.map_cons, List.mem_cons, not_or] at h
    have he : ¬ e.1 = f := fun h' => h.1 h'.symm
    simp only [observed, List.filterMap_cons, he, if_false] at ih ⊢
    exact ih h.2

theorem observed_of_mem (f v : String) (tvs : List (String × String))
    (hn : (tvs.map Prod.fst).Nodup) (h : (f, v) ∈ tvs) : observed f tvs = [v] := by
  induction tvs with
  | nil => simp at h
  | cons e tvs ih =>
    rw [List.map_cons, List.nodup_cons] at hn
    rcases List.mem_cons.1 h with h1 | h1
    · subst h1
      have := observed_eq_nil f tvs hn.1
      simp only [observed, List.filterMap_cons, if_true] at this ⊢
      rw [this]
    · have he : ¬ e.1 = f := by
        intro h'
        exact hn.1 (h' ▸ List.mem_map_of_mem Prod.fst h1)
      have := ih hn.2 h1
      simp only [observed, List.filterMap_cons, he, if_false] at this ⊢
      exact this

theorem mem_of_mem_observed (f v : String) (tvs : List (String × String))
    (h : v ∈ observed f tvs) : (f, v) ∈ tvs := by
  unfold observed at h
  obtain ⟨e, he, hev⟩ := List.mem_filterMap.1 h
  by_cases h1 : e.1 = f
  · simp only [h1, if_true, Option.some.injEq] at hev
    rw [← h1, ← hev]
    exact he
  · simp [h1] at hev

theorem observed_count (f v : String) (tvs : List (String × String))
    (hn : (tvs.map Prod.fst).Nodup) :
    (observed f tvs).count v = if (f, v) ∈ tvs then 1 else 0 := by
  by_cases h : (f, v) ∈ tvs
  · rw [observed_of_mem f v tvs hn h]
    simp [h]
  · simp only [h, if_false]
    exact List.count_eq_zero_of_not_mem (fun h' => h (mem_of_mem_observed f v tvs h'))

theorem observed_visited_cons (f : String) (tvs : List (String × String))
    (tvss : List (List (String × String))) :
    observed f (visited (tvs :: tvss)) = observed f tvs ++ observed f (visited tvss) := by
  simp [visited, observed, List.filterMap_append]

theorem observed_visited_count (f v : String) (tvss : List (List (String × String)))
    (hmaps : ∀ tvs ∈ tvss, (tvs.map Prod.fst).Nodup) :
    (observed f (visited tvss)).count v = recordsWith f v tvss := by
  induction tvss with
  | nil => rfl
  | cons tvs tvss ih =>
    rw [observed_visited_cons, List.count_append,
      ih (fun t ht => hmaps t (List.mem_cons_of_mem _ ht)),
      observed_count f v tvs (hmaps tvs (List.mem_cons_self _ _))]
    unfold recordsWith
    by_cases h : (f, v) ∈ tvs
    · simp [List.filter_cons, h]; omega
    · simp [List.filter_cons, h]

/-- C17: for every sequence of facet maps (each with pairwise distinct
facet keys, as a map has) folded by the summary loop of `main`, in whatever
order the entries of each map are visited, every value that a facet tracks
in the final table has a count equal to the number of facet maps of the
sequence that assign that value to that facet. -/
theorem tracked_count_exact (tvss : List (List (String × String)))
    (hmaps : ∀ tvs ∈ tvss, (tvs.map Prod.fst).Nodup) (f v : String)
    (hv : v ∈ tracked (summaryLoop tvss).tagvals f) :
    ((summaryLoop tvss).tagvals.getD f []).get? v = some (recordsWith f v tvss) := by
  unfold tracked GoMap.getD at hv
  unfold GoMap.getD
  rw [summaryLoop_get?] at hv ⊢
  rw [facet_counts _ v hv, observed_visited_count f v tvss hmaps]

/-- Witness for C17: twenty records with twenty values of `h`, then two more
records, one with the tracked value `a` and one with the new value `u`: the
count of `a` is 2. -/
theorem tracked_count_exact_witness :
    "a" ∈ tracked (summaryLoop (twentyHosts ++ [[("h", "a")], [("h", "u")]])).tagvals "h" ∧
    ((summaryLoop (twentyHosts ++ [[("h", "a")], [("h", "u")]])).tagvals.getD "h" []).get? "a"
      = some 2 :=
  ⟨by decide,
    tracked_count_exact (twentyHosts ++ [[("h", "a")], [("h", "u")]]) (by decide) "h" "a"
      (by decide)⟩

/-! ## Independence of the map iteration order -/

theorem observed_perm (f : String) (tvs tvs' : List (String × String))
    (hperm : tvs.Perm tvs') (hn : (tvs.map Prod.fst).Nodup) :
    observed f tvs = observed f tvs' := by
  have hn' : (tvs'.map Prod.fst).Nodup := (hperm.map Prod.fst).nodup_iff.1 hn
  by_cases h : f ∈ tvs.map Prod.fst
  · obtain ⟨e, he, hef⟩ := List.mem_map.1 h
    have h1 : (f, e.2) ∈ tvs := by rw [← hef]; exact he
    rw [observed_of_mem f e.2 tvs hn h1, observed_of_mem f e.2 tvs' hn' (hperm.subset h1)]
  · have h' : f ∉ tvs'.map Prod.fst := fun hm => h ((hperm.map Prod.fst).symm.subset hm)
    rw [observed_eq_nil f tvs h, observed_eq_nil f tvs' h']

theorem observed_visited_perm (f : String) (tvss tvss' : List (List (String × String)))
    (hperm : List.Forall₂ List.Perm tvss tvss')
    (hmaps : ∀ tvs ∈ tvss, (tvs.map Prod.fst).Nodup) :
    observed f (visited tvss) = observed f (visited tvss') := by
  induction hperm with
  | nil => rfl
  | cons h _ ih =>
    rw [observed_visited_cons, observed_visited_cons,
      observed_perm f _ _ h (hmaps _ (List.mem_cons_self _ _)),
      ih (fun t ht => hmaps t (List.mem_cons_of_mem _ ht))]

theorem tally_keys_nodup (T : GoMap (GoMap Nat)) (tag value : String) (h : T.keys.Nodup) :
    (tally T tag value).keys.Nodup := by
  unfold tally
  cases T.get? tag with
  | none => exact GoMap.keys_nodup_set T _ _ h
  | some m =>
    simp only
    split
    · exact GoMap.keys_nodup_set T _ _ h
    · exact h

theorem summaryLoop_keys_nodup (tvss : List (List (String × String))) :
    (summaryLoop tvss).tagvals.keys.Nodup := by
  rw [summaryLoop_tagvals]
  have : ∀ (es : List (String × String)) (T : GoMap (GoMap Nat)), T.keys.Nodup →
      (es.foldl (fun T e => tally T e.1 e.2) T).keys.Nodup := by
    intro es
    induction es with
    | nil => intro T h; exact h
    | cons e es ih => intro T h; exact ih _ (tally_keys_nodup T e.1 e.2 h)
  exact this _ [] (by simp [GoMap.keys])

theorem summaryLoop_N (tvss : List (List (String × String))) :
    (summaryLoop tvss).N = (visited tvss).length := by
  have h1 : ∀ (tvs : List (String × String)) (st : Tally),
      (tallyRecord st tvs).N = st.N + tvs.length := by
    intro tvs
    induction tvs with
    | nil => intro st; rfl
    | cons e tvs ih =>
      intro st
      simp only [tallyRecord, List.foldl_cons, List.length_cons] at ih ⊢
      rw [ih]
      show st.N + 1 + tvs.length = st.N + (tvs.length + 1)
      omega
  have h2 : ∀ (tvss : List (List (String × String))) (st : Tally),
      (tvss.foldl tallyRecord st).N = st.N + (visited tvss).length := by
    intro tvss
    induction tvss with
    | nil => intro st; rfl
    | cons tvs tvss ih =>
      intro st
      simp only [List.foldl_cons, visited, List.flatten_cons, List.length_append] at ih ⊢
      rw [ih, h1]; omega
  simpa [summaryLoop] using h2 tvss ⟨[], 0⟩

theorem visited_length_perm (tvss tvss' : List (List (String × String)))
    (hperm : List.Forall₂ List.Perm tvss tvss') :
    (visited tvss).length = (visited tvss').length := by
  induction hperm with
  | nil => rfl
  | cons h _ ih =>
    simp only [visited, List.flatten_cons, List.length_append] at ih ⊢
    rw [h.length_eq, ih]

theorem report_congr (T T' : GoMap (GoMap Nat)) (h : ∀ f, T.get? f = T'.get? f)
    (hn : T.keys.Nodup) (hn' : T'.keys.Nodup) : report T = report T' := by
  have hkeys : T.keys.Perm T'.keys := by
    rw [List.perm_ext_iff_of_nodup hn hn']
    intro k
    rw [← GoMap.get?_isSome_iff, ← GoMap.get?_isSome_iff, h k]
  have hfacet : reportFacet T = reportFacet T' := by
    funext f
    simp [reportFacet, listedValues, isLong, GoMap.getD, h f]
  unfold report reportOrder
  rw [sortStrings_eq_of_perm _ _ hkeys, hfacet]

/-- C20: when each facet map of the sequence (a map: pairwise distinct facet
keys) is visited in another order of its entries, the summary loop of `main`
builds the same aggregation table: every facet has the same map of values
and counts, hence the same tracked values; the counter `N` is the same, and
so is the printed report. Only the order of the records matters. -/
theorem summary_order_independent (tvss tvss' : List (List (String × String)))
    (hperm : List.Forall₂ List.Perm tvss tvss')
    (hmaps : ∀ tvs ∈ tvss, (tvs.map Prod.fst).Nodup) :
    (∀ f, (summaryLoop tvss).tagvals.get? f = (summaryLoop tvss').tagvals.get? f) ∧
    (∀ f, tracked (summaryLoop tvss).tagvals f = tracked (summaryLoop tvss').tagvals f) ∧
    (summaryLoop tvss).N = (summaryLoop tvss').N ∧
    summaryReport tvss = summaryReport tvss' := by
  have hget : ∀ f, (summaryLoop tvss).tagvals.get? f = (summaryLoop tvss').tagvals.get? f := by
    intro f
    rw [summaryLoop_get?, summaryLoop_get?, observed_visited_perm f tvss tvss' hperm hmaps]
  refine ⟨hget, ?_, ?_, ?_⟩
  · intro f
    unfold tracked GoMap.getD
    rw [hget f]
  · rw [summaryLoop_N, summaryLoop_N, visited_length_perm tvss tvss' hperm]
  · exact report_congr _ _ hget (summaryLoop_keys_nodup tvss) (summaryLoop_keys_nodup tvss')

/-- Witness for C20: two records whose facet maps are visited in the orders
measurement, host, fields and fields, host, measurement. -/
theorem summary_order_independent_witness :
    summaryReport [[("", "cpu"), ("host", "a"), (" _fields", "value")],
        [("", "mem"), ("host", "a"), (" _fields", "value")]] =
      summaryReport [[(" _fields", "value"), ("host", "a"), ("", "cpu")],
        [("host", "a"), ("", "mem"), (" _fields", "value")]] :=
  (summary_order_independent
    [[("", "cpu"), ("host", "a"), (" _fields", "value")],
      [("", "mem"), ("host", "a"), (" _fields", "value")]]
    [[(" _fields", "value"), ("host", "a"), ("", "cpu")],
      [("host", "a"), ("", "mem"), (" _fields", "value")]]
    (List.Forall₂.cons (by decide) (List.Forall₂.cons (by decide) List.Forall₂.nil))
    (by decide)).2.2.2

/-! ## The measurement facet -/

theorem foldl_set_get?_other (f : String) (pairs : List (String × String))
    (init : GoMap String) (h : ∀ p ∈ pairs, p.1 ≠ f) :
    GoMap.get? (pairs.foldl (fun m p => GoMap.set m p.1 p.2) init) f = init.get? f := by
  induction pairs generalizing init with
  | nil => rfl
  | cons p pairs ih =>
    simp only [List.foldl_cons]
    rw [ih _ (fun q hq => h q (List.mem_cons_of_mem _ hq)), GoMap.get?_set]
    simp [h p (List.mem_cons_self _ _)]

theorem foldl_set_nodup (pairs : List (String × String)) (init : GoMap String)
    (h : init.keys.Nodup) :
    GoMap.keys (pairs.foldl (fun m p => GoMap.set m p.1 p.2) init) |>.Nodup := by
  induction pairs generalizing init with
  | nil => exact h
  | cons p pairs ih =>
    simp only [List.foldl_cons]
    exact ih _ (GoMap.keys_nodup_set init p.1 p.2 h)

/-- Without filter terms and without a measurement restriction `Summary`
sends a facet map for every record whose measurement decodes. -/
theorem summaryRecord_unfiltered (r : Record) :
    summaryRecord none [] [] r =
      r.measurement.map (fun m =>
        GoMap.set ((decoded r.tags).foldl (fun g p => GoMap.set g p.1 p.2) [("", m)])
          " _fields" (joinStrings "," (sortStrings (summaryFieldLoop [] r.fields)))) := by
  unfold summaryRecord
  cases hm : r.measurement with
  | none => rfl
  | some m =>
    have hsat : (summaryTagPass [] [] m r).sat = GoMap.len ([] : GoMap String) := by
      rw [summaryTagPass_sat]
      simp [satisfied, GoMap.get?, GoMap.len]
    have hvals : (summaryTagPass [] [] m r).values =
        (decoded r.tags).foldl (fun g p => GoMap.set g p.1 p.2) [("", m)] := by
      unfold summaryTagPass
      rw [summaryTagLoop_values]
      have : (decoded r.tags).filter (unblocked [] []) = decoded r.tags := by
        rw [List.filter_eq_self]
        intro p _
        simp [unblocked, GoMap.get?]
      rw [this]
    simp only [otherMeasurement, Bool.false_eq_true, if_false, hsat, ne_eq, not_true_eq_false,
      hvals, Option.map_some']

theorem observed_measurement (r : Record) (m : String) (g tvs : List (String × String))
    (hkey : "" ∉ streamKeys r.tags) (hm : r.measurement = some m)
    (hg : summaryRecord none [] [] r = some g) (hperm : g.Perm tvs) :
    observed "" tvs = [m] := by
  rw [summaryRecord_unfiltered, hm] at hg
  simp only [Option.map_some', Option.some.injEq] at hg
  have hnodup : (GoMap.keys g).Nodup := by
    rw [← hg]
    exact GoMap.keys_nodup_set _ _ _ (foldl_set_nodup _ _ (by simp [GoMap.keys]))
  have hget : GoMap.get? g "" = some m := by
    rw [← hg, GoMap.get?_set]
    have : ¬ (" _fields" = "") := by decide
    simp only [this, if_false]
    rw [foldl_set_get?_other]
    · simp [GoMap.get?]
    · intro p hp h
      exact hkey (h ▸ List.mem_map_of_mem Prod.fst hp)
  have hmem : ("", m) ∈ tvs := hperm.subset (GoMap.mem_of_get? g "" m hget)
  exact observed_of_mem "" m tvs ((hperm.map Prod.fst).nodup_iff.1 hnodup) hmem

theorem observed_measurements (recs : List Record) (tvss : List (List (String × String)))
    (hkeys : ∀ r ∈ recs, "" ∉ streamKeys r.tags)
    (hvisit : List.Forall₂ List.Perm (recs.filterMap (summaryRecord none [] [])) tvss) :
    observed "" (visited tvss) = measurementNames recs := by
  induction recs generalizing tvss with
  | nil =>
    simp only [List.filterMap_nil] at hvisit
    cases hvisit
    rfl
  | cons r recs ih =>
    have hk := hkeys r (List.mem_cons_self _ _)
    have hks : ∀ r' ∈ recs, "" ∉ streamKeys r'.tags :=
      fun r' hr' => hkeys r' (List.mem_cons_of_mem _ hr')
    cases hm : r.measurement with
    | none =>
      have hnone : summaryRecord none [] [] r = none := by
        rw [summaryRecord_unfiltered, hm]; rfl
      rw [List.filterMap_cons, hnone] at hvisit
      simp only [measurementNames, List.filterMap_cons, hm]
      exact ih tvss hks hvisit
    | some m =>
      have hsome : ∃ g, summaryRecord none [] [] r = some g := by
        rw [summaryRecord_unfiltered, hm]; exact ⟨_, rfl⟩
      obtain ⟨g, hg⟩ := hsome
      rw [List.filterMap_cons, hg] at hvisit
      cases hvisit with
      | cons hperm hrest =>
        rw [observed_visited_cons, observed_measurement r m g _ hk hm hg hperm,
          ih _ hks hrest]
        simp [measurementNames, List.filterMap_cons, hm]

theorem measurementNames_count (recs : List Record) (v : String) :
    (measurementNames recs).count v =
      (recs.filter (fun r => decide (r.measurement = some v))).length := by
  induction recs with
  | nil => rfl
  | cons r recs ih =>
    cases hm : r.measurement with
    | none => simpa [measurementNames, List.filterMap_cons, hm, List.filter_cons] using ih
    | some m =>
      simp only [measurementNames, List.filterMap_cons, hm, List.filter_cons,
        Option.some.injEq] at ih ⊢
      by_cases hmv : m = v
      · simp [hmv, ih]
      · simp [hmv, ih, List.count_cons]

theorem summary_sent_unrestricted (recs : List Record) :
    (Summary "" [] [] recs).sent = recs.filterMap (summaryRecord none [] []) := by
  have h : fromOf "" = none := by decide
  unfold Summary
  rw [h, (summary_fold none [] [] recs ⟨[], 0, 0⟩).1]
  rfl

/-- C13 (counterexample): twenty-one records with twenty-one different
measurement names, summarised without filter terms, measurement restriction
or columns: the name `u` of the last record is present in the record set but
the measurement facet does not track it. -/
theorem measurement_facet_capped :
    (∃ r ∈ twentyOneMeasurements, r.measurement = some "u") ∧
    "u" ∉ tracked (summaryLoop (Summary "" [] [] twentyOneMeasurements).sent).tagvals "" ∧
    (tracked (summaryLoop (Summary "" [] [] twentyOneMeasurements).sent).tagvals "").length
      = 20 := by
  refine ⟨⟨⟨some "u", [], [some ("value", "1")]⟩, by decide, rfl⟩, by decide, by decide⟩

/-- C13 (amended): for every record set whose tag keys are non-empty,
processed in summary mode with no filter terms, no measurement restriction
and no columns, in whatever order the entries of each facet map are
visited, the measurement facet (key "") of the final aggregation table
tracks exactly the first 20 distinct measurement names in record order (all
of them when at most 20 distinct names are present), and the count of each
tracked name equals the number of records with that measurement. -/
theorem measurement_facet_first_twenty (recs : List Record)
    (tvss : List (List (String × String)))
    (hkeys : ∀ r ∈ recs, "" ∉ streamKeys r.tags)
    (hvisit : List.Forall₂ List.Perm (Summary "" [] [] recs).sent tvss) :
    tracked (summaryLoop tvss).tagvals "" = (firstDistinct (measurementNames recs)).take 20 ∧
    (∀ v, v ∈ tracked (summaryLoop tvss).tagvals "" →
      ((summaryLoop tvss).tagvals.getD "" []).get? v =
        some (recs.filter (fun r => decide (r.measurement = some v))).length) ∧
    ((firstDistinct (measurementNames recs)).length ≤ 20 →
      ∀ v, v ∈ tracked (summaryLoop tvss).tagvals "" ↔ ∃ r ∈ recs, r.measurement = some v) := by
  rw [summary_sent_unrestricted] at hvisit
  have hobs := observed_measurements recs tvss hkeys hvisit
  have htr : tracked (summaryLoop tvss).tagvals "" =
      (firstDistinct (measurementNames recs)).take 20 := by
    rw [summaryLoop_tracked, hobs]
  refine ⟨htr, ?_, ?_⟩
  · intro v hv
    unfold tracked GoMap.getD at hv
    unfold GoMap.getD
    rw [summaryLoop_get?] at hv ⊢
    rw [facet_counts _ v hv, hobs, measurementNames_count]
  · intro hle v
    rw [htr, List.take_of_length_le hle, mem_firstDistinct]
    unfold measurementNames
    rw [List.mem_filterMap]

/-- Witness for C13 (amended): the records `cpu,host=a,region=us value=1`,
`cpu,host=b,region=eu value=2` and `mem,host=a value=9`. -/
theorem measurement_facet_first_twenty_witness :
    tracked (summaryLoop (Summary "" [] [] [recCpuA, recCpuB, recMemA]).sent).tagvals "" =
      (firstDistinct (measurementNames [recCpuA, recCpuB, recMemA])).take 20 ∧
    ((summaryLoop (Summary "" [] [] [recCpuA, recCpuB, recMemA]).sent).tagvals.getD "" []).get?
      "cpu" = some 2 :=
  ⟨(measurement_facet_first_twenty [recCpuA, recCpuB, recMemA]
      (Summary "" [] [] [recCpuA, recCpuB, recMemA]).sent (by decide)
      (List.Forall₂.cons (List.Perm.refl _) (List.Forall₂.cons (List.Perm.refl _)
        (List.Forall₂.cons (List.Perm.refl _) List.Forall₂.nil)))).1,
    (measurement_facet_first_twenty [recCpuA, recCpuB, recMemA]
      (Summary "" [] [] [recCpuA, recCpuB, recMemA]).sent (by decide)
      (List.Forall₂.cons (List.Perm.refl _) (List.Forall₂.cons (List.Perm.refl _)
        (List.Forall₂.cons (List.Perm.refl _) List.Forall₂.nil)))).2.1 "cpu" (by decide)⟩

end Outflux
